import Mathlib

/-!
Verification of the treemux routing core (group.go, tree.go and the request
parameter accessors) against its natural-language specification.

Modelling conventions:
* Byte strings (Go `string`, indexed byte-wise) are modelled as `List Char`;
  all route patterns and request paths of interest are ASCII, where the two
  views coincide.
* Handler callbacks (`HandlerFunc`) are opaque; they are modelled by `Nat`
  identifiers.  A Go `nil` handler is `Option.none`.
* Go panics during registration are modelled as `Except.error`; a panic kills
  the Go process, so the post-panic (partially mutated) tree is unobservable
  and the functional model simply returns the error without a new tree.
* The source keeps `staticIndices : []byte` and `staticChild : []*node` in
  lockstep (every mutation updates both at the same position); the model fuses
  them into one `List (Char × Node)` of (leading byte, child) pairs.
* `handlerMap` stores the seven well-known verbs in dedicated fields and every
  verb in the map `m`; `Get`/`Set` keep the two views consistent, so the whole
  table behaves exactly like one finite map from verb to handler plus the
  `implicitHead` flag.  It is modelled as an association list with
  replace-on-set semantics.
-/

namespace Treemux

/-- `Param` from the request accessors: an ordered (name, value) pair. -/
structure Param where
  name : List Char
  value : List Char
deriving DecidableEq, Repr

/-- The per-node handler table (`handlerMap` in tree.go): verb ↦ handler,
plus the flag recording that the HEAD entry was synthesized from GET. -/
structure HandlerMap where
  entries : List (String × Nat)
  implicitHead : Bool
deriving DecidableEq, Repr

/-- Association-list update with replace semantics: models `handlerMap.Set`. -/
def setEntry : List (String × Nat) → String → Nat → List (String × Nat)
  | [], name, h => [(name, h)]
  | e :: es, name, h => if e.1 = name then (name, h) :: es else e :: setEntry es name h

/-- `handlerMap.Get`: the handler registered for a verb, `none` for Go `nil`. -/
def hmGet (m : HandlerMap) (name : String) : Option Nat :=
  (m.entries.find? (fun e => e.1 == name)).map (fun e => e.2)

/-- `handlerMap.Set`. -/
def hmSet (m : HandlerMap) (name : String) (h : Nat) : HandlerMap :=
  { m with entries := setEntry m.entries name h }

/-- A trie vertex (`node` in tree.go).  Field order follows the source:
path, route, priority, static children (leading byte paired with child),
wildcard child, catch-all child, addSlash, isCatchAll, handler table,
leaf wildcard names.  `leafWildcardNames` is `Option`al because the source
distinguishes a nil slice from a present one. -/
inductive Node : Type where
  | mk :
      (path : List Char) →
      (route : List Char) →
      (priority : Nat) →
      (static : List (Char × Node)) →
      (wildcardChild : Option Node) →
      (catchAllChild : Option Node) →
      (addSlash : Bool) →
      (isCatchAll : Bool) →
      (handlerMap : Option HandlerMap) →
      (leafWildcardNames : Option (List (List Char))) →
      Node

namespace Node

def path : Node → List Char
  | .mk p _ _ _ _ _ _ _ _ _ => p

def route : Node → List Char
  | .mk _ r _ _ _ _ _ _ _ _ => r

def priority : Node → Nat
  | .mk _ _ pr _ _ _ _ _ _ _ => pr

def static : Node → List (Char × Node)
  | .mk _ _ _ s _ _ _ _ _ _ => s

def wildcardChild : Node → Option Node
  | .mk _ _ _ _ w _ _ _ _ _ => w

def catchAllChild : Node → Option Node
  | .mk _ _ _ _ _ c _ _ _ _ => c

def addSlash : Node → Bool
  | .mk _ _ _ _ _ _ a _ _ _ => a

def isCatchAll : Node → Bool
  | .mk _ _ _ _ _ _ _ i _ _ => i

def handlerMap : Node → Option HandlerMap
  | .mk _ _ _ _ _ _ _ _ h _ => h

def leafWildcardNames : Node → Option (List (List Char))
  | .mk _ _ _ _ _ _ _ _ _ n => n

end Node

/-- A fresh zero node, like Go's `&node{}` with selected fields set later. -/
def mkNode (path : List Char) : Node :=
  .mk path [] 0 [] none none false false none none

/-- The empty tree root (`TreeMux.root`, a zero `&node{}`). -/
def emptyRoot : Node := mkNode []

/-- `node.paramName`: `leafWildcardNames[len-1-i]`.  The source would panic on
a missing slice or an out-of-range index; those situations are unreachable on
trees built by registration, and the model returns `[]` there. -/
def paramName (n : Node) (i : Nat) : List Char :=
  match Node.leafWildcardNames n with
  | some names => names.getD (names.length - 1 - i) []
  | none => []

/-- Is `c` a hexadecimal digit (net/url `ishex`)? -/
def isHexDigit (c : Char) : Bool :=
  (('0' ≤ c) && (c ≤ '9')) || (('a' ≤ c) && (c ≤ 'f')) || (('A' ≤ c) && (c ≤ 'F'))

/-- Value of a hexadecimal digit (net/url `unhex`). -/
def hexVal (c : Char) : Nat :=
  if ('0' ≤ c) && (c ≤ '9') then c.toNat - '0'.toNat
  else if ('a' ≤ c) && (c ≤ 'f') then c.toNat - 'a'.toNat + 10
  else if ('A' ≤ c) && (c ≤ 'F') then c.toNat - 'A'.toNat + 10
  else 0

/-- `url.PathUnescape`: decode `%XX` escapes; fail (Go `EscapeError`) on a `%`
not followed by two hex digits.  In path mode `+` is left alone. -/
def pathUnescape : List Char → Option (List Char)
  | [] => some []
  | '%' :: h1 :: h2 :: rest =>
      if isHexDigit h1 && isHexDigit h2 then
        (pathUnescape rest).map (fun r => Char.ofNat (16 * hexVal h1 + hexVal h2) :: r)
      else none
  | '%' :: _ => none
  | c :: rest => (pathUnescape rest).map (fun r => c :: r)

/-- The decode-or-fall-back step used twice in `node.search`:
`unescaped, err := url.PathUnescape(tok); if err != nil { unescaped = tok }`. -/
def unescapeOrRaw (tok : List Char) : List Char :=
  match pathUnescape tok with
  | some u => u
  | none => tok

/-- First static child whose recorded leading byte equals `c`
(the `for i, staticIndex := range n.staticIndices` scan with `break`). -/
def findStaticPair (l : List (Char × Node)) (c : Char) : Option (Char × Node) :=
  l.find? (fun p => p.1 == c)

/-- The handler currently stored at a node for a verb (`node.handlerMap.Get`
behind a nil check; the nil-map case would be a nil dereference in Go and is
unreachable on trees built by registration). -/
def nodeHandlerFor (n : Node) (verb : String) : Option Nat :=
  match Node.handlerMap n with
  | some m => hmGet m verb
  | none => none

/-- The result triple of `node.search`. -/
abbrev SearchRes := Option Node × Option Nat × List Param

/-- The wildcard-branch bookkeeping of `node.search` once the wildcard child
has been searched: if it produced a handler, or produced a node while no
static candidate exists, record this level's named parameter (decoded, with
fallback to the raw token) after the deeper parameters. -/
def wcCollect (stat wres : SearchRes) (thisToken : List Char) : SearchRes :=
  if wres.2.1.isSome ∨ (stat.1.isNone ∧ wres.1.isSome) then
    match wres.1 with
    | some wn =>
        (some wn, wres.2.1, wres.2.2 ++ [⟨paramName wn wres.2.2.length, unescapeOrRaw thisToken⟩])
    | none => stat
  else stat

/-- The catch-all step of `node.search`: consult the catch-all child's table
directly and return it with the whole remaining path as its parameter, when
it has a handler or when nothing else was found. -/
def caPhase (method : String) (afterWc : SearchRes) (ca : Option Node) (path : List Char) :
    SearchRes :=
  match ca with
  | some cac =>
      let handler := nodeHandlerFor cac method
      if handler.isSome ∨ afterWc.1.isNone then
        (some cac, handler, [⟨paramName cac 0, unescapeOrRaw path⟩])
      else afterWc
  | none => afterWc

/-- `node.search` from tree.go: returns (found node, handler, params).
`handler` is `some` only on a true match; a `some` found node with `none`
handler signals "path exists but not for this verb".

The recursion of the source is bounded by the depth of the tree; the model
makes that explicit with a `fuel` argument so the function is structurally
recursive and computes definitionally.  `fuel = path.length + 1` is enough
for every tree built by registration (each recursive step consumes at least
one byte of the path there); an exhausted budget returns the no-match triple,
which no theorem below relies on (they hold for every fuel or use the
sufficient bound).

Faithfulness notes:
* the static scan breaks at the first index byte equal to the path's first
  byte, exactly like the source loop;
* in the wildcard branch the source would dereference a nil `wcNode` when
  `wcHandler != nil && wcNode == nil`; that state is impossible (proved in
  `search_handler_isSome_found` below), and the model falls through there;
* `catchAllChild.handlerMap.Get` on a nil map would be a nil dereference in
  Go; the model yields `none` in that (unreachable on built trees) case. -/
def search (fuel : Nat) (n : Node) (method : String) (path : List Char) : SearchRes :=
  match fuel with
  | 0 => (none, none, [])
  | fuel + 1 =>
    if path = [] then
      match Node.handlerMap n with
      | none => (none, none, [])
      | some m => (some n, hmGet m method, [])
    else
      let stat :=
        match findStaticPair (Node.static n) (path.headD ' ') with
        | some pr =>
            if (Node.path pr.2).length ≤ path.length ∧
                Node.path pr.2 = path.take (Node.path pr.2).length then
              search fuel pr.2 method (path.drop (Node.path pr.2).length)
            else (none, none, [])
        | none => (none, none, [])
      if stat.2.1.isSome then stat
      else
        let afterWc :=
          match Node.wildcardChild n with
          | some w =>
              let nextSlash := (path.findIdx? (fun x => x = '/')).getD path.length
              if path.take nextSlash = [] then stat
              else wcCollect stat (search fuel w method (path.drop nextSlash)) (path.take nextSlash)
          | none => stat
        if afterWc.2.1.isSome then afterWc
        else caPhase method afterWc (Node.catchAllChild n) path

/-! ### Field updates (Go mutates nodes in place; the model rebuilds them) -/

def setPath : Node → List Char → Node
  | .mk _ r pr s w c a i h names, p => .mk p r pr s w c a i h names

def setRoute : Node → List Char → Node
  | .mk p _ pr s w c a i h names, r => .mk p r pr s w c a i h names

def bumpPriority : Node → Node
  | .mk p r pr s w c a i h names => .mk p r (pr + 1) s w c a i h names

def setStatic : Node → List (Char × Node) → Node
  | .mk p r pr _ w c a i h names, s => .mk p r pr s w c a i h names

def setWildcard : Node → Option Node → Node
  | .mk p r pr s _ c a i h names, w => .mk p r pr s w c a i h names

def setCatchAll : Node → Option Node → Node
  | .mk p r pr s w _ a i h names, c => .mk p r pr s w c a i h names

def setAddSlash : Node → Bool → Node
  | .mk p r pr s w c _ i h names, a => .mk p r pr s w c a i h names

def setHandlerMap : Node → Option HandlerMap → Node
  | .mk p r pr s w c a i _ names, h => .mk p r pr s w c a i h names

def setLeafNames : Node → Option (List (List Char)) → Node
  | .mk p r pr s w c a i h _, names => .mk p r pr s w c a i h names

/-- `node.setHandler`: conflict check, then write the verb entry; an explicit
HEAD may replace an implicitly derived HEAD.  `implicitHeadArg` is the flag
recorded when the verb is HEAD. -/
def setHandler (n : Node) (verb : String) (h : Nat) (implicitHeadArg : Bool) :
    Except String Node :=
  let m0 := match Node.handlerMap n with
            | none => ({ entries := [], implicitHead := false } : HandlerMap)
            | some m => m
  if (hmGet m0 verb).isSome ∧ (verb ≠ "HEAD" ∨ m0.implicitHead = false) then
    .error "already handles"
  else
    let m1 := hmSet m0 verb h
    let m2 := if verb = "HEAD" then { m1 with implicitHead := implicitHeadArg } else m1
    .ok (setHandlerMap n (some m2))

/-- `node.sortStaticChild`: bubble the (index byte, child) pair at position `i`
toward the front while its priority exceeds its left neighbour's. -/
def sortStaticAt (l : List (Char × Node)) : Nat → List (Char × Node)
  | 0 => l
  | j + 1 =>
    match l[j]?, l[j + 1]? with
    | some a, some b =>
        if Node.priority a.2 < Node.priority b.2 then
          sortStaticAt ((l.set j b).set (j + 1) a) j
        else l
    | _, _ => l

/-- Length of the longest common byte run of the two lists, exactly the loop
in `splitCommonPrefix` (it stops at the end of either string or at the first
mismatch). -/
def commonLen : List Char → List Char → Nat
  | a :: as, b :: bs => if a = b then commonLen as bs + 1 else 0
  | _, _ => 0

/-- `node.splitCommonPrefix`, acting on the existing child at the matched
slot: either the child's stored segment is a prefix of the incoming token
(no split; descend into it) or an intermediary node holding the common run
is created with the shortened child beneath it.  Returns the node to descend
into and the number of consumed token bytes.  The `headD ' '` reads the first
byte of the shortened child segment, which is nonempty in the non-prefix
case (`childNode.path[0]` in the source after the shortening). -/
def splitCommonPart (child : Node) (tok : List Char) : Node × Nat :=
  if Node.path child = tok.take (Node.path child).length then
    (child, (Node.path child).length)
  else
    let i := commonLen (Node.path child) tok
    let shortened := setPath child ((Node.path child).drop i)
    let inter : Node := .mk (tok.take i) [] (Node.priority child)
        [(((Node.path child).drop i).headD ' ', shortened)] none none false false none none
    (inter, i)

/-- `node.addPath`.  `f` is applied to the leaf node the recursion returns
(the caller `addOne` in group.go mutates that leaf: route stamp, addSlash,
handler writes); the updated leaf is reinstalled in place.  `fuel` bounds the
recursion depth; `path.length + 1` always suffices on trees built by
registration (each static step consumes at least one byte), and running out
yields an error.

Faithfulness notes:
* the source sorts the matched static slot by priority before recursing into
  the (pointer-shared) child; the model recurses first, reinstalls the result
  at the slot and then sorts — equivalent because the recursion never changes
  the child's own priority and the sort inspects only top-level priorities
  and moves (index, child) pairs wholesale;
* in the catch-all arm the source compares `path[1:]` with the stored (or
  freshly created) catch-all segment before checking for a `/` after the
  token, and the model keeps that order. -/
def tokenEndOf (path : List Char) : Nat :=
  if path.headD ' ' = '/' then 1
  else match path.findIdx? (fun x => x = '/') with
       | none => path.length
       | some k => k

/-- The leading-escape test of a literal token (`\\*`, `\\:` or `\\\\` opens an
escaped literal). -/
def escapedTok (thisToken : List Char) (inStaticToken : Bool) : Bool :=
  decide (2 ≤ thisToken.length) && !inStaticToken &&
  (thisToken.headD ' ' == '\\') &&
  ((thisToken[1]?.getD ' ') == '*' || (thisToken[1]?.getD ' ') == ':' ||
   (thisToken[1]?.getD ' ') == '\\')

/-- The catch-all child, created on first use (`if n.catchAllChild == nil`). -/
def catchAllOrNew (n : Node) (tokStar : List Char) : Node :=
  match Node.catchAllChild n with
  | some ca => ca
  | none => .mk tokStar [] 0 [] none none false true none none

def addPath (fuel : Nat) (n : Node) (path : List Char)
    (wildcards : Option (List (List Char))) (inStaticToken : Bool)
    (f : Node → Except String Node) : Except String Node :=
  match fuel with
  | 0 => .error "out of fuel"
  | fuel + 1 =>
    if path = [] then
      match wildcards with
      | some ws =>
        match Node.leafWildcardNames n with
        | some old =>
            if old.length ≠ ws.length then
              .error "Reached leaf node with differing wildcard array length"
            else if old ≠ ws then
              .error "Wildcards are ambiguous"
            else f n
        | none => f (setLeafNames n (some ws))
      | none => f n
    else
      if path.headD ' ' = '*' ∧ inStaticToken = false then
        let cac := catchAllOrNew n ((path.take (tokenEndOf path)).drop 1)
        if path.drop 1 ≠ Node.path cac then
          .error "Catch-all name doesn't match: overlapping catchalls"
        else if (path.findIdx? (fun x => x = '/')).isSome then
          .error "/ after catch-all"
        else do
          let res ← f (setLeafNames cac
            (some ((wildcards.getD []) ++ [(path.take (tokenEndOf path)).drop 1])))
          return setCatchAll n (some res)
      else if path.headD ' ' = ':' ∧ inStaticToken = false then do
        let res ← addPath fuel ((Node.wildcardChild n).getD (mkNode "wildcard".toList))
          (path.drop (tokenEndOf path))
          (some ((wildcards.getD []) ++ [(path.take (tokenEndOf path)).drop 1])) false f
        return setWildcard n (some res)
      else
        let escaped := escapedTok (path.take (tokenEndOf path)) inStaticToken
        let c2 := if escaped then (path.take (tokenEndOf path))[1]?.getD ' '
                  else path.headD ' '
        let tok := if escaped then (path.take (tokenEndOf path)).drop 1
                   else path.take (tokenEndOf path)
        match (Node.static n).findIdx? (fun p => p.1 == c2) with
        | some i => do
            let res ← addPath fuel
              (bumpPriority
                (splitCommonPart ((Node.static n)[i]?.getD (' ', emptyRoot)).2 tok).1)
              (path.drop
                ((splitCommonPart ((Node.static n)[i]?.getD (' ', emptyRoot)).2 tok).2 +
                  (if escaped then 1 else 0)))
              wildcards (c2 != '/') f
            return setStatic n (sortStaticAt ((Node.static n).set i (c2, res)) i)
        | none => do
            let res ← addPath fuel (mkNode tok) (path.drop (tokenEndOf path)) wildcards
              (c2 != '/') f
            return setStatic n ((Node.static n) ++ [(c2, res)])

/-- `Group.Handle` for the root group (empty group path, no middleware),
with the two tree-relevant configuration flags.  `EscapeAddedRoutes` is
modelled at its default `false` (the escaped-variant re-registration branch
is never taken).  Panics become errors. -/
def handleAdd (root : Node) (method : String) (pattern : List Char) (h : Nat)
    (headCanUseGet redirectTrailingSlash : Bool) : Except String Node :=
  if pattern ≠ [] ∧ pattern.headD ' ' ≠ '/' then
    .error "Path must start with slash"
  else if pattern = [] then
    .error "Cannot map an empty path"
  else
    let addSlash : Bool := decide (1 < pattern.length) &&
      (pattern.getLastD ' ' == '/') && redirectTrailingSlash
    let fullPath := if addSlash then pattern.dropLast else pattern
    let f : Node → Except String Node := fun leaf => do
      let leaf ←
        if Node.route leaf = [] then pure (setRoute leaf fullPath)
        else if Node.route leaf ≠ fullPath then
          .error "node route differs from added route"
        else pure leaf
      let leaf := if addSlash then setAddSlash leaf true else leaf
      let leaf ← setHandler leaf method h false
      if headCanUseGet ∧ method = "GET" ∧ (nodeHandlerFor leaf "HEAD").isNone then
        setHandler leaf "HEAD" h true
      else
        pure leaf
    addPath (fullPath.length + 1) root (fullPath.drop 1) none false f

/-- One registration request: verb, pattern, handler id. -/
structure Op where
  verb : String
  pattern : List Char
  handler : Nat
deriving DecidableEq, Repr

/-- Apply one registration with the default configuration
(`HeadCanUseGet = true`, `RedirectTrailingSlash = true`). -/
def applyOp (t : Node) (op : Op) : Except String Node :=
  handleAdd t op.verb op.pattern op.handler true true

/-- Run a whole registration sequence from the empty root. -/
def runOps (ops : List Op) : Except String Node :=
  ops.foldlM applyOp emptyRoot

/-- Modelled from the spec: the dispatch entry point of `TreeMux` (its file is
not part of src/) resolves `match(verb, path)` of §6 by calling `root.search`
on the request path after the leading slash — mirroring registration, which
inserts `fullPath[1:]`.  Returns (node-exists, handler, params) as the triple
produced by `node.search`. -/
def matchRoute (t : Node) (verb : String) (path : List Char) :
    Option Node × Option Nat × List Param :=
  search (path.length + 1) t verb (path.drop 1)

/-! ### Request parameter accessors (src/unnamed/part_000) -/

/-- `Params.Get`: first parameter with the given name; `none` models the
(\"\", false) return. -/
def paramsGet (ps : List Param) (name : List Char) : Option (List Char) :=
  (ps.find? (fun p => p.name == name)).map (fun p => p.value)

/-- `Params.Text`: like `Get` but with the empty string for a missing name. -/
def paramsText (ps : List Param) (name : List Char) : List Char :=
  (paramsGet ps name).getD []

/-- `strconv.ParseUint(s, 10, 64)`: digits only, no sign, error on empty
input, non-digit bytes, or a value exceeding 2^64-1.  The source's
cutoff/overflow tests reject a digit step exactly when the running value
would leave 64 bits, which is the `v < 2 ^ 64` test here. -/
def parseUint64 (s : List Char) : Except String Nat :=
  if s = [] then .error "syntax" else go s 0
where
  go : List Char → Nat → Except String Nat
  | [], acc => .ok acc
  | ch :: rest, acc =>
      if ('0' ≤ ch) && (ch ≤ '9') then
        let v := acc * 10 + (ch.toNat - '0'.toNat)
        if v < 2 ^ 64 then go rest v else .error "range"
      else .error "syntax"

/-- `Params.Uint32`: parse the text value as a 64-bit unsigned integer, then
truncate with the Go conversion `uint32(n)`, i.e. reduce modulo 2^32. -/
def paramsUint32 (ps : List Param) (name : List Char) : Except String Nat :=
  match parseUint64 (paramsText ps name) with
  | .error e => .error e
  | .ok n => .ok (n % 2 ^ 32)

/-- `Params.Uint64`. -/
def paramsUint64 (ps : List Param) (name : List Char) : Except String Nat :=
  parseUint64 (paramsText ps name)

/-! ## Auxiliary definitions used by the verification -/

/-- The `implicitHead` flag stored at a node (false when no table exists). -/
def nodeImplicitHead (n : Node) : Bool :=
  match Node.handlerMap n with
  | some m => m.implicitHead
  | none => false

/-- Decimal value of a digit string (specification-side view of the parse). -/
def digitsVal (s : List Char) : Nat :=
  s.foldl (fun a c => a * 10 + (c.toNat - '0'.toNat)) 0

/-- The parameter-naming invariant of a search result: when a node was found,
every parameter at position `i` (counted from the head of the list) carries
the name `paramName found i`, i.e. `leafWildcardNames[len-1-i]` of the found
leaf. -/
def NamedRes (r : SearchRes) : Prop :=
  ∀ nd, r.1 = some nd → ∀ i, i < r.2.2.length →
    (r.2.2.getD i ⟨[], []⟩).name = paramName nd i

/-- Projection of a search result to its control part (found node, handler). -/
def resFH (r : SearchRes) : Option Node × Option Nat :=
  (r.1, r.2.1)

/-- A handler is only ever returned together with a found node. -/
def HFRes (r : SearchRes) : Prop :=
  r.2.1.isSome = true → r.1.isSome = true

/-- `wcCollect` without parameter collection (control part only). -/
def wcCollectFH (stat wres : Option Node × Option Nat) : Option Node × Option Nat :=
  if wres.2.isSome ∨ (stat.1.isNone ∧ wres.1.isSome) then
    match wres.1 with
    | some wn => (some wn, wres.2)
    | none => stat
  else stat

/-- `caPhase` without parameter collection (control part only). -/
def caPhaseFH (method : String) (afterWc : Option Node × Option Nat) (ca : Option Node) :
    Option Node × Option Nat :=
  match ca with
  | some cac =>
      let handler := nodeHandlerFor cac method
      if handler.isSome ∨ afterWc.1.isNone then (some cac, handler) else afterWc
  | none => afterWc

/-- The control skeleton of `node.search`: which node and handler a search
returns, defined without any percent-decoding.  Compared against `search`
to show that decoding (and in particular decoding failure) never influences
whether, where, or with which handler a search succeeds. -/
def searchFH (fuel : Nat) (n : Node) (method : String) (path : List Char) :
    Option Node × Option Nat :=
  match fuel with
  | 0 => (none, none)
  | fuel + 1 =>
    if path = [] then
      match Node.handlerMap n with
      | none => (none, none)
      | some m => (some n, hmGet m method)
    else
      let stat :=
        match findStaticPair (Node.static n) (path.headD ' ') with
        | some pr =>
            if (Node.path pr.2).length ≤ path.length ∧
                Node.path pr.2 = path.take (Node.path pr.2).length then
              searchFH fuel pr.2 method (path.drop (Node.path pr.2).length)
            else (none, none)
        | none => (none, none)
      if stat.2.isSome then stat
      else
        let afterWc :=
          match Node.wildcardChild n with
          | some w =>
              let nextSlash := (path.findIdx? (fun x => x = '/')).getD path.length
              if path.take nextSlash = [] then stat
              else wcCollectFH stat (searchFH fuel w method (path.drop nextSlash))
          | none => stat
        if afterWc.2.isSome then afterWc
        else caPhaseFH method afterWc (Node.catchAllChild n)

/-- Well-formedness of handler tables used for the 404/405 distinction:
every node with a table has at least one entry, and every catch-all child
carries a nonempty table (registration always writes a handler into the
leaf it creates).  Checked to the same depth budget as `search`. -/
def wfHm : Nat → Node → Bool
  | 0, _ => true
  | fuel + 1, n =>
      (match Node.handlerMap n with
       | some m => !m.entries.isEmpty
       | none => true) &&
      (Node.static n).all (fun pr => wfHm fuel pr.2) &&
      (match Node.wildcardChild n with
       | some w => wfHm fuel w
       | none => true) &&
      (match Node.catchAllChild n with
       | some c =>
           (match Node.handlerMap c with
            | some m => !m.entries.isEmpty
            | none => false) && wfHm fuel c
       | none => true)

/-- Structural well-formedness of a route tree, maintained by insertion:
at every node the static children carry pairwise-distinct leading bytes
(`staticIndices` has no duplicate), each recorded byte is the first byte of
its child's nonempty segment, and a static segment is either exactly `/` or
contains no `/`. -/
inductive WFs : Node → Prop where
  | intro : ∀ n : Node,
      ((Node.static n).map Prod.fst).Nodup →
      (∀ pr ∈ Node.static n,
        Node.path pr.2 ≠ [] ∧ (Node.path pr.2).headD ' ' = pr.1 ∧
        (Node.path pr.2 = ['/'] ∨ '/' ∉ Node.path pr.2)) →
      (∀ pr ∈ Node.static n, WFs pr.2) →
      (∀ w, Node.wildcardChild n = some w → WFs w) →
      (∀ c, Node.catchAllChild n = some c → WFs c) →
      WFs n

/-- The leaf continuation of `addPath` only touches per-leaf data (route,
addSlash flag, handler table): it never changes the leaf's segment or its
children.  This is exactly what `addOne` in `Group.Handle` does. -/
def PreservesShape (f : Node → Except String Node) : Prop :=
  ∀ l l', f l = .ok l' →
    Node.static l' = Node.static l ∧ Node.wildcardChild l' = Node.wildcardChild l ∧
    Node.catchAllChild l' = Node.catchAllChild l ∧ Node.path l' = Node.path l

/-- Reachability inside the trie: `Reach n m` holds when `m` is `n` itself or
a node of one of `n`'s subtrees (through a static, wildcard or catch-all
edge). -/
inductive Reach : Node → Node → Prop where
  | refl : ∀ n, Reach n n
  | staticStep : ∀ n m pr, pr ∈ Node.static n → Reach pr.2 m → Reach n m
  | wcStep : ∀ n m w, Node.wildcardChild n = some w → Reach w m → Reach n m
  | caStep : ∀ n m c, Node.catchAllChild n = some c → Reach c m → Reach n m

/-- The static-only descent of `node.search` — the spine that a literal,
wildcard-free request path follows: at each node take the static child
recorded under the path's first byte, require its whole segment to be the
next run of the path, consume it and continue; the node reached when the
path is exhausted is the result.  Fueled like `search`. -/
def staticFind : Nat → Node → List Char → Option Node
  | 0, _, _ => none
  | fuel + 1, n, path =>
    if path = [] then some n
    else
      match findStaticPair (Node.static n) (path.headD ' ') with
      | some pr =>
          if (Node.path pr.2).length ≤ path.length ∧
              Node.path pr.2 = path.take (Node.path pr.2).length then
            staticFind fuel pr.2 (path.drop (Node.path pr.2).length)
          else none
      | none => none

/-- Verb `v` resolves to handler `hid` at the end of the static spine spelled
by `r` below `x`, and — when `v` is HEAD — the stored entry is an explicit
one (`implicitHead` clear), which no later registration may overwrite. -/
def EntryVia (v : String) (hid : Nat) (x : Node) (r : List Char) : Prop :=
  ∃ fu leaf m, staticFind fu x r = some leaf ∧ Node.handlerMap leaf = some m ∧
    hmGet m v = some hid ∧ (v = "HEAD" → m.implicitHead = false)

/-- The leaf continuation of `addPath` keeps an explicitly stored
(verb ↦ handler) entry intact wherever it succeeds. -/
def PreservesEntry (v : String) (hid : Nat) (f : Node → Except String Node) : Prop :=
  ∀ l l' m, f l = .ok l' → Node.handlerMap l = some m → hmGet m v = some hid →
    (v = "HEAD" → m.implicitHead = false) →
    ∃ m', Node.handlerMap l' = some m' ∧ hmGet m' v = some hid ∧
      (v = "HEAD" → m'.implicitHead = false)

/-- The leaf continuation records (verb ↦ handler) on whatever leaf it is
applied to, explicitly in the HEAD case. -/
def InstallsEntry (v : String) (hid : Nat) (f : Node → Except String Node) : Prop :=
  ∀ l l', f l = .ok l' →
    ∃ m', Node.handlerMap l' = some m' ∧ hmGet m' v = some hid ∧
      (v = "HEAD" → m'.implicitHead = false)

/-! ### Concrete registration scenarios from the specification -/

/-- The tree with `GET /:a/:b` registered (two nested wildcards). -/
def treeTwoWc : Node :=
  match runOps [⟨"GET", "/:a/:b".toList, 7⟩] with
  | .ok t => t
  | .error _ => emptyRoot

/-- `GET /:page` then `GET /favicon.ico`. -/
def treePF : Node :=
  match runOps [⟨"GET", "/:page".toList, 1⟩, ⟨"GET", "/favicon.ico".toList, 2⟩] with
  | .ok t => t
  | .error _ => emptyRoot

/-- `GET /favicon.ico` then `GET /:page` (reverse registration order). -/
def treeFP : Node :=
  match runOps [⟨"GET", "/favicon.ico".toList, 2⟩, ⟨"GET", "/:page".toList, 1⟩] with
  | .ok t => t
  | .error _ => emptyRoot

/-- The literal pattern `/a/` (trailing slash) registered under the default
configuration. -/
def treeSlash : Node :=
  match handleAdd emptyRoot "GET" "/a/".toList 5 true true with
  | .ok t => t
  | .error _ => emptyRoot

/-- Only `GET /widgets` registered. -/
def treeWidgets : Node :=
  match runOps [⟨"GET", "/widgets".toList, 3⟩] with
  | .ok t => t
  | .error _ => emptyRoot

/-- A bare node whose table already has a GET entry. -/
def nodeWithGet : Node :=
  setHandlerMap emptyRoot (some ⟨[("GET", 3)], false⟩)

/-- A node that already stores a catch-all child named `a`. -/
def nodeWithCatch : Node :=
  setCatchAll emptyRoot (some (mkNode "a".toList))

/-- `GET /ab` then `GET /ax`: the second insertion splits the stored `ab`
segment at the common run `a`. -/
def treeC8 : Node :=
  match runOps [⟨"GET", "/ab".toList, 1⟩, ⟨"GET", "/ax".toList, 2⟩] with
  | .ok t => t
  | .error _ => emptyRoot

/-- `GET /about` then `GET /a` (literal patterns sharing a prefix, so the
second insertion splits the first edge). -/
def treeC3 : Node :=
  match runOps [⟨"GET", "/about".toList, 9⟩, ⟨"GET", "/a".toList, 10⟩] with
  | .ok t => t
  | .error _ => emptyRoot

/-- Only `GET /:name` registered. -/
def treeName : Node :=
  match runOps [⟨"GET", "/:name".toList, 6⟩] with
  | .ok t => t
  | .error _ => emptyRoot

/-! ## Field-update lemmas -/

@[simp] theorem path_mk (p r : List Char) (pri : Nat) (st : List (Char × Node))
    (w c : Option Node) (a i : Bool) (h : Option HandlerMap)
    (names : Option (List (List Char))) :
    Node.path (.mk p r pri st w c a i h names) = p := rfl

@[simp] theorem route_mk (p r : List Char) (pri : Nat) (st : List (Char × Node))
    (w c : Option Node) (a i : Bool) (h : Option HandlerMap)
    (names : Option (List (List Char))) :
    Node.route (.mk p r pri st w c a i h names) = r := rfl

@[simp] theorem static_mk (p r : List Char) (pri : Nat) (st : List (Char × Node))
    (w c : Option Node) (a i : Bool) (h : Option HandlerMap)
    (names : Option (List (List Char))) :
    Node.static (.mk p r pri st w c a i h names) = st := rfl

@[simp] theorem wildcard_mk (p r : List Char) (pri : Nat) (st : List (Char × Node))
    (w c : Option Node) (a i : Bool) (h : Option HandlerMap)
    (names : Option (List (List Char))) :
    Node.wildcardChild (.mk p r pri st w c a i h names) = w := rfl

@[simp] theorem catchAll_mk (p r : List Char) (pri : Nat) (st : List (Char × Node))
    (w c : Option Node) (a i : Bool) (h : Option HandlerMap)
    (names : Option (List (List Char))) :
    Node.catchAllChild (.mk p r pri st w c a i h names) = c := rfl

@[simp] theorem handlerMap_mk (p r : List Char) (pri : Nat) (st : List (Char × Node))
    (w c : Option Node) (a i : Bool) (h : Option HandlerMap)
    (names : Option (List (List Char))) :
    Node.handlerMap (.mk p r pri st w c a i h names) = h := rfl

@[simp] theorem leafNames_mk (p r : List Char) (pri : Nat) (st : List (Char × Node))
    (w c : Option Node) (a i : Bool) (h : Option HandlerMap)
    (names : Option (List (List Char))) :
    Node.leafWildcardNames (.mk p r pri st w c a i h names) = names := rfl


@[simp] theorem static_setLeafNames (n : Node) (x : Option (List (List Char))) :
    Node.static (setLeafNames n x) = Node.static n := by cases n; rfl

@[simp] theorem wildcard_setLeafNames (n : Node) (x : Option (List (List Char))) :
    Node.wildcardChild (setLeafNames n x) = Node.wildcardChild n := by cases n; rfl

@[simp] theorem catchAll_setLeafNames (n : Node) (x : Option (List (List Char))) :
    Node.catchAllChild (setLeafNames n x) = Node.catchAllChild n := by cases n; rfl

@[simp] theorem path_setLeafNames (n : Node) (x : Option (List (List Char))) :
    Node.path (setLeafNames n x) = Node.path n := by cases n; rfl

@[simp] theorem handlerMap_setLeafNames (n : Node) (x : Option (List (List Char))) :
    Node.handlerMap (setLeafNames n x) = Node.handlerMap n := by cases n; rfl

@[simp] theorem leafNames_setLeafNames (n : Node) (x : Option (List (List Char))) :
    Node.leafWildcardNames (setLeafNames n x) = x := by cases n; rfl

@[simp] theorem static_setHandlerMap (n : Node) (x : Option HandlerMap) :
    Node.static (setHandlerMap n x) = Node.static n := by cases n; rfl

@[simp] theorem wildcard_setHandlerMap (n : Node) (x : Option HandlerMap) :
    Node.wildcardChild (setHandlerMap n x) = Node.wildcardChild n := by cases n; rfl

@[simp] theorem catchAll_setHandlerMap (n : Node) (x : Option HandlerMap) :
    Node.catchAllChild (setHandlerMap n x) = Node.catchAllChild n := by cases n; rfl

@[simp] theorem path_setHandlerMap (n : Node) (x : Option HandlerMap) :
    Node.path (setHandlerMap n x) = Node.path n := by cases n; rfl

@[simp] theorem handlerMap_setHandlerMap (n : Node) (x : Option HandlerMap) :
    Node.handlerMap (setHandlerMap n x) = x := by cases n; rfl

@[simp] theorem leafNames_setHandlerMap (n : Node) (x : Option HandlerMap) :
    Node.leafWildcardNames (setHandlerMap n x) = Node.leafWildcardNames n := by
  cases n; rfl

@[simp] theorem static_setRoute (n : Node) (x : List Char) :
    Node.static (setRoute n x) = Node.static n := by cases n; rfl

@[simp] theorem wildcard_setRoute (n : Node) (x : List Char) :
    Node.wildcardChild (setRoute n x) = Node.wildcardChild n := by cases n; rfl

@[simp] theorem catchAll_setRoute (n : Node) (x : List Char) :
    Node.catchAllChild (setRoute n x) = Node.catchAllChild n := by cases n; rfl

@[simp] theorem path_setRoute (n : Node) (x : List Char) :
    Node.path (setRoute n x) = Node.path n := by cases n; rfl

@[simp] theorem handlerMap_setRoute (n : Node) (x : List Char) :
    Node.handlerMap (setRoute n x) = Node.handlerMap n := by cases n; rfl

@[simp] theorem leafNames_setRoute (n : Node) (x : List Char) :
    Node.leafWildcardNames (setRoute n x) = Node.leafWildcardNames n := by cases n; rfl

@[simp] theorem static_setAddSlash (n : Node) (x : Bool) :
    Node.static (setAddSlash n x) = Node.static n := by cases n; rfl

@[simp] theorem wildcard_setAddSlash (n : Node) (x : Bool) :
    Node.wildcardChild (setAddSlash n x) = Node.wildcardChild n := by cases n; rfl

@[simp] theorem catchAll_setAddSlash (n : Node) (x : Bool) :
    Node.catchAllChild (setAddSlash n x) = Node.catchAllChild n := by cases n; rfl

@[simp] theorem path_setAddSlash (n : Node) (x : Bool) :
    Node.path (setAddSlash n x) = Node.path n := by cases n; rfl

@[simp] theorem handlerMap_setAddSlash (n : Node) (x : Bool) :
    Node.handlerMap (setAddSlash n x) = Node.handlerMap n := by cases n; rfl

@[simp] theorem leafNames_setAddSlash (n : Node) (x : Bool) :
    Node.leafWildcardNames (setAddSlash n x) = Node.leafWildcardNames n := by cases n; rfl

@[simp] theorem static_setCatchAll (n : Node) (x : Option Node) :
    Node.static (setCatchAll n x) = Node.static n := by cases n; rfl

@[simp] theorem wildcard_setCatchAll (n : Node) (x : Option Node) :
    Node.wildcardChild (setCatchAll n x) = Node.wildcardChild n := by cases n; rfl

@[simp] theorem catchAll_setCatchAll (n : Node) (x : Option Node) :
    Node.catchAllChild (setCatchAll n x) = x := by cases n; rfl

@[simp] theorem path_setCatchAll (n : Node) (x : Option Node) :
    Node.path (setCatchAll n x) = Node.path n := by cases n; rfl

@[simp] theorem handlerMap_setCatchAll (n : Node) (x : Option Node) :
    Node.handlerMap (setCatchAll n x) = Node.handlerMap n := by cases n; rfl

@[simp] theorem static_setWildcard (n : Node) (x : Option Node) :
    Node.static (setWildcard n x) = Node.static n := by cases n; rfl

@[simp] theorem wildcard_setWildcard (n : Node) (x : Option Node) :
    Node.wildcardChild (setWildcard n x) = x := by cases n; rfl

@[simp] theorem catchAll_setWildcard (n : Node) (x : Option Node) :
    Node.catchAllChild (setWildcard n x) = Node.catchAllChild n := by cases n; rfl

@[simp] theorem path_setWildcard (n : Node) (x : Option Node) :
    Node.path (setWildcard n x) = Node.path n := by cases n; rfl

@[simp] theorem handlerMap_setWildcard (n : Node) (x : Option Node) :
    Node.handlerMap (setWildcard n x) = Node.handlerMap n := by cases n; rfl

@[simp] theorem static_setStatic (n : Node) (x : List (Char × Node)) :
    Node.static (setStatic n x) = x := by cases n; rfl

@[simp] theorem wildcard_setStatic (n : Node) (x : List (Char × Node)) :
    Node.wildcardChild (setStatic n x) = Node.wildcardChild n := by cases n; rfl

@[simp] theorem catchAll_setStatic (n : Node) (x : List (Char × Node)) :
    Node.catchAllChild (setStatic n x) = Node.catchAllChild n := by cases n; rfl

@[simp] theorem path_setStatic (n : Node) (x : List (Char × Node)) :
    Node.path (setStatic n x) = Node.path n := by cases n; rfl

@[simp] theorem handlerMap_setStatic (n : Node) (x : List (Char × Node)) :
    Node.handlerMap (setStatic n x) = Node.handlerMap n := by cases n; rfl

@[simp] theorem static_setPath (n : Node) (x : List Char) :
    Node.static (setPath n x) = Node.static n := by cases n; rfl

@[simp] theorem wildcard_setPath (n : Node) (x : List Char) :
    Node.wildcardChild (setPath n x) = Node.wildcardChild n := by cases n; rfl

@[simp] theorem catchAll_setPath (n : Node) (x : List Char) :
    Node.catchAllChild (setPath n x) = Node.catchAllChild n := by cases n; rfl

@[simp] theorem path_setPath (n : Node) (x : List Char) :
    Node.path (setPath n x) = x := by cases n; rfl

@[simp] theorem handlerMap_setPath (n : Node) (x : List Char) :
    Node.handlerMap (setPath n x) = Node.handlerMap n := by cases n; rfl

@[simp] theorem leafNames_setPath (n : Node) (x : List Char) :
    Node.leafWildcardNames (setPath n x) = Node.leafWildcardNames n := by cases n; rfl

@[simp] theorem static_bumpPriority (n : Node) :
    Node.static (bumpPriority n) = Node.static n := by cases n; rfl

@[simp] theorem wildcard_bumpPriority (n : Node) :
    Node.wildcardChild (bumpPriority n) = Node.wildcardChild n := by cases n; rfl

@[simp] theorem catchAll_bumpPriority (n : Node) :
    Node.catchAllChild (bumpPriority n) = Node.catchAllChild n := by cases n; rfl

@[simp] theorem path_bumpPriority (n : Node) :
    Node.path (bumpPriority n) = Node.path n := by cases n; rfl

@[simp] theorem handlerMap_bumpPriority (n : Node) :
    Node.handlerMap (bumpPriority n) = Node.handlerMap n := by cases n; rfl

@[simp] theorem static_mkNode (p : List Char) : Node.static (mkNode p) = [] := rfl

@[simp] theorem wildcard_mkNode (p : List Char) : Node.wildcardChild (mkNode p) = none := rfl

@[simp] theorem catchAll_mkNode (p : List Char) : Node.catchAllChild (mkNode p) = none := rfl

@[simp] theorem path_mkNode (p : List Char) : Node.path (mkNode p) = p := rfl

@[simp] theorem handlerMap_mkNode (p : List Char) : Node.handlerMap (mkNode p) = none := rfl

/-! ## Well-formedness helpers -/

theorem wfs_nodup {n : Node} (h : WFs n) : ((Node.static n).map Prod.fst).Nodup := by
  cases h
  assumption

theorem wfs_facts {n : Node} (h : WFs n) :
    ∀ pr ∈ Node.static n,
      Node.path pr.2 ≠ [] ∧ (Node.path pr.2).headD ' ' = pr.1 ∧
      (Node.path pr.2 = ['/'] ∨ '/' ∉ Node.path pr.2) := by
  cases h
  assumption

theorem wfs_children {n : Node} (h : WFs n) : ∀ pr ∈ Node.static n, WFs pr.2 := by
  cases h
  assumption

theorem wfs_wc {n : Node} (h : WFs n) : ∀ w, Node.wildcardChild n = some w → WFs w := by
  cases h
  assumption

theorem wfs_ca {n : Node} (h : WFs n) : ∀ c, Node.catchAllChild n = some c → WFs c := by
  cases h
  assumption

/-- `WFs` depends only on the static list and the two special children. -/
theorem wfs_congr {n n' : Node} (hs : Node.static n' = Node.static n)
    (hw : Node.wildcardChild n' = Node.wildcardChild n)
    (hc : Node.catchAllChild n' = Node.catchAllChild n) (h : WFs n) : WFs n' := by
  refine WFs.intro n' ?_ ?_ ?_ ?_ ?_
  · rw [hs]
    exact wfs_nodup h
  · rw [hs]
    exact wfs_facts h
  · rw [hs]
    exact wfs_children h
  · rw [hw]
    exact wfs_wc h
  · rw [hc]
    exact wfs_ca h

/-- Any node without children is well-formed. -/
theorem wfs_leafish {n : Node} (hs : Node.static n = [])
    (hw : Node.wildcardChild n = none) (hc : Node.catchAllChild n = none) : WFs n := by
  refine WFs.intro n ?_ ?_ ?_ ?_ ?_
  · rw [hs]
    exact List.nodup_nil
  · rw [hs]
    intro pr hpr
    cases hpr
  · rw [hs]
    intro pr hpr
    cases hpr
  · intro w hww
    rw [hw] at hww
    cases hww
  · intro c hcc
    rw [hc] at hcc
    cases hcc

theorem wfs_mkNode (p : List Char) : WFs (mkNode p) :=
  wfs_leafish rfl rfl rfl

theorem wfs_emptyRoot : WFs emptyRoot :=
  wfs_mkNode []

/-! ## General lemmas about `search` -/

theorem getD_append_lt {α : Type} (l l' : List α) (d : α) (i : Nat) (h : i < l.length) :
    (l ++ l').getD i d = l.getD i d := by
  induction l generalizing i with
  | nil => simp at h
  | cons a as ih =>
    cases i with
    | zero => simp [List.getD_cons_zero]
    | succ j =>
        simp only [List.cons_append, List.getD_cons_succ]
        exact ih j (by simpa using h)

theorem getD_append_self {α : Type} (l : List α) (x d : α) :
    (l ++ [x]).getD l.length d = x := by
  induction l with
  | nil => simp [List.getD_cons_zero]
  | cons a as ih => simp [List.getD_cons_succ, ih]

theorem namedRes_none3 : NamedRes (none, none, []) := by
  intro nd h
  simp at h

theorem namedRes_wcCollect {stat wres : SearchRes} (tok : List Char)
    (hstat : NamedRes stat) (hwres : NamedRes wres) :
    NamedRes (wcCollect stat wres tok) := by
  unfold wcCollect
  split
  · cases hwn : wres.1 with
    | none => exact hstat
    | some wn =>
        intro nd hnd i hi
        simp only at hnd
        cases hnd
        simp only at hi ⊢
        rw [List.length_append, List.length_singleton] at hi
        rcases Nat.lt_succ_iff_lt_or_eq.mp hi with hlt | heq
        · rw [getD_append_lt _ _ _ _ hlt]
          exact hwres wn hwn i hlt
        · subst heq
          rw [getD_append_self]
  · exact hstat

theorem namedRes_caPhase {afterWc : SearchRes} (method : String) (ca : Option Node)
    (path : List Char) (h : NamedRes afterWc) :
    NamedRes (caPhase method afterWc ca path) := by
  unfold caPhase
  cases ca with
  | none => exact h
  | some cac =>
      simp only
      split
      · intro nd hnd i hi
        simp only at hnd hi ⊢
        cases hnd
        have hi0 : i = 0 := Nat.lt_one_iff.mp (by simpa using hi)
        subst hi0
        simp [List.getD_cons_zero]
      · exact h

/-- Every search result is correctly named: parameters are consumed
positionally, the parameter at position `i` being named by indexing back
into the found leaf's `leafWildcardNames` (`paramName found i`). -/
theorem search_namedRes (fuel : Nat) (n : Node) (method : String) (path : List Char) :
    NamedRes (search fuel n method path) := by
  induction fuel generalizing n path with
  | zero =>
      intro nd h
      simp [search] at h
  | succ fuel IH =>
      rw [search]
      by_cases hp : path = []
      · rw [if_pos hp]
        cases hm : Node.handlerMap n with
        | none => exact namedRes_none3
        | some m =>
            intro nd hnd i hi
            simp at hi
      · rw [if_neg hp]
        have hstat : NamedRes
            (match findStaticPair (Node.static n) (path.headD ' ') with
             | some pr =>
                 if (Node.path pr.2).length ≤ path.length ∧
                     Node.path pr.2 = path.take (Node.path pr.2).length then
                   search fuel pr.2 method (path.drop (Node.path pr.2).length)
                 else (none, none, [])
             | none => (none, none, [])) := by
          cases findStaticPair (Node.static n) (path.headD ' ') with
          | none => exact namedRes_none3
          | some pr =>
              simp only
              split
              · exact IH _ _
              · exact namedRes_none3
        generalize hs : (match findStaticPair (Node.static n) (path.headD ' ') with
             | some pr =>
                 if (Node.path pr.2).length ≤ path.length ∧
                     Node.path pr.2 = path.take (Node.path pr.2).length then
                   search fuel pr.2 method (path.drop (Node.path pr.2).length)
                 else (none, none, [])
             | none => (none, none, [])) = stat at hstat ⊢
        simp only
        split
        · exact hstat
        · have hafter : NamedRes
              (match Node.wildcardChild n with
               | some w =>
                   if path.take ((path.findIdx? (fun x => x = '/')).getD path.length) = [] then
                     stat
                   else
                     wcCollect stat
                       (search fuel w method
                         (path.drop ((path.findIdx? (fun x => x = '/')).getD path.length)))
                       (path.take ((path.findIdx? (fun x => x = '/')).getD path.length))
               | none => stat) := by
            cases Node.wildcardChild n with
            | none => exact hstat
            | some w =>
                simp only
                split
                · exact hstat
                · exact namedRes_wcCollect _ hstat (IH _ _)
          generalize (match Node.wildcardChild n with
               | some w =>
                   if path.take ((path.findIdx? (fun x => x = '/')).getD path.length) = [] then
                     stat
                   else
                     wcCollect stat
                       (search fuel w method
                         (path.drop ((path.findIdx? (fun x => x = '/')).getD path.length)))
                       (path.take ((path.findIdx? (fun x => x = '/')).getD path.length))
               | none => stat) = afterWc at hafter ⊢
          split
          · exact hafter
          · exact namedRes_caPhase method _ path hafter

/-! ## Claim C1 -/

/-- C1 (counterexample): with `GET /:a/:b` registered, matching `/x/y`
succeeds, but the returned parameter list is `[b="y", a="x"]` — the
parameter captured nearest the root (`a`) comes last, not first, so the
claimed outer-to-inner ordering is false at this input. -/
theorem c1_counterexample :
    runOps [⟨"GET", "/:a/:b".toList, 7⟩] = .ok treeTwoWc ∧
    (matchRoute treeTwoWc "GET" "/x/y".toList).2.1 = some 7 ∧
    (matchRoute treeTwoWc "GET" "/x/y".toList).2.2 =
      [⟨"b".toList, "y".toList⟩, ⟨"a".toList, "x".toList⟩] ∧
    ¬ ((matchRoute treeTwoWc "GET" "/x/y".toList).2.2.getD 0 ⟨[], []⟩).name = "a".toList :=
  ⟨rfl, by decide, by decide, by decide⟩

/-- C1 (amended): for every successful match the parameter list is ordered
inner-to-outer — the parameter captured nearest the leaf comes first and the
one nearest the root comes last — and the parameter at position `i` is paired
with the name `wildcardNames[len-1-i]` recorded at the found leaf
(`paramName found i`), exactly the index the matcher uses while collecting. -/
theorem c1_params_positionally_named (fuel : Nat) (n : Node) (method : String)
    (path : List Char) (nd : Node)
    (hfound : (search fuel n method path).1 = some nd)
    (i : Nat) (hi : i < (search fuel n method path).2.2.length) :
    ((search fuel n method path).2.2.getD i ⟨[], []⟩).name = paramName nd i :=
  search_namedRes fuel n method path nd hfound i hi

/-- The node found when matching `/x/y` in `treeTwoWc` (the `:b` leaf). -/
def foundTwoWc : Node :=
  ((search 5 treeTwoWc "GET" "x/y".toList).1).getD emptyRoot

/-- C1 (witness): instantiating the amended theorem on the two-wildcard tree. -/
theorem c1_params_positionally_named_witness :
    (search 5 treeTwoWc "GET" "x/y".toList).1 = some foundTwoWc ∧
    ((search 5 treeTwoWc "GET" "x/y".toList).2.2.getD 0 ⟨[], []⟩).name =
      paramName foundTwoWc 0 :=
  ⟨rfl, c1_params_positionally_named 5 treeTwoWc "GET" "x/y".toList foundTwoWc rfl 0
    (by decide)⟩

/-! ## Claim C2 -/

/-- C2: with `/:page` (handler 1) and `/favicon.ico` (handler 2) registered
for GET in either order, `match(GET, "/favicon.ico")` returns handler 2 with
no parameters, and `match(GET, "/other")` returns handler 1 with the single
parameter `page="other"`: a static child whose subtree matches wins over the
wildcard child of the same node. -/
theorem c2_static_beats_wildcard :
    runOps [⟨"GET", "/:page".toList, 1⟩, ⟨"GET", "/favicon.ico".toList, 2⟩] = .ok treePF ∧
    runOps [⟨"GET", "/favicon.ico".toList, 2⟩, ⟨"GET", "/:page".toList, 1⟩] = .ok treeFP ∧
    (matchRoute treePF "GET" "/favicon.ico".toList).2.1 = some 2 ∧
    (matchRoute treePF "GET" "/favicon.ico".toList).2.2 = [] ∧
    (matchRoute treePF "GET" "/favicon.ico".toList).1.isSome = true ∧
    (matchRoute treePF "GET" "/other".toList).2.1 = some 1 ∧
    (matchRoute treePF "GET" "/other".toList).2.2 = [⟨"page".toList, "other".toList⟩] ∧
    (matchRoute treeFP "GET" "/favicon.ico".toList).2.1 = some 2 ∧
    (matchRoute treeFP "GET" "/favicon.ico".toList).2.2 = [] ∧
    (matchRoute treeFP "GET" "/other".toList).2.1 = some 1 ∧
    (matchRoute treeFP "GET" "/other".toList).2.2 = [⟨"page".toList, "other".toList⟩] :=
  ⟨rfl, rfl, by decide, by decide, by decide, by decide, by decide, by decide, by decide,
    by decide, by decide⟩

/-! ## Claim C3 -/

/-- C3 (counterexample): `/a/` is a purely literal pattern (no `:`, `*` or
escape markers), its registration for GET succeeds under the default
configuration, yet matching the pattern string itself returns no node and no
handler — the trailing slash is stripped at registration (for the redirect
flag) and the handler is stored at `/a` instead. -/
theorem c3_counterexample :
    handleAdd emptyRoot "GET" "/a/".toList 5 true true = .ok treeSlash ∧
    (matchRoute treeSlash "GET" "/a/".toList).1.isNone = true ∧
    (matchRoute treeSlash "GET" "/a/".toList).2.1 = none ∧
    (matchRoute treeSlash "GET" "/a".toList).2.1 = some 5 :=
  ⟨rfl, by decide, by decide, by decide⟩

/-! ## Claim C5 -/

set_option maxHeartbeats 2000000 in
/-- C5: registering only `GET /x` (with `HeadCanUseGet`) makes `HEAD /x`
match with the same handler as GET; a subsequent explicit `HEAD /x`
registration succeeds instead of raising a duplicate error, after which
HEAD matches return the new handler and GET is unchanged. -/
theorem c5_implicit_head (h1 h2 : Nat) (t1 : Node)
    (reg1 : handleAdd emptyRoot "GET" "/x".toList h1 true true = .ok t1) :
    (matchRoute t1 "HEAD" "/x".toList).2.1 = some h1 ∧
    (matchRoute t1 "GET" "/x".toList).2.1 = some h1 ∧
    ∃ t2, handleAdd t1 "HEAD" "/x".toList h2 true true = .ok t2 ∧
      (matchRoute t2 "HEAD" "/x".toList).2.1 = some h2 ∧
      (matchRoute t2 "GET" "/x".toList).2.1 = some h1 := by
  have ht1 : t1 = (handleAdd emptyRoot "GET" "/x".toList h1 true true).toOption.getD
      emptyRoot := by
    rw [reg1]
    rfl
  subst ht1
  refine ⟨rfl, rfl, ?_⟩
  exact ⟨(handleAdd ((handleAdd emptyRoot "GET" "/x".toList h1 true true).toOption.getD
      emptyRoot) "HEAD" "/x".toList h2 true true).toOption.getD emptyRoot, rfl, rfl, rfl⟩

/-- C5 (witness): the implicit-HEAD scenario at handlers 21 and 22. -/
theorem c5_implicit_head_witness :
    (matchRoute ((handleAdd emptyRoot "GET" "/x".toList 21 true true).toOption.getD
      emptyRoot) "HEAD" "/x".toList).2.1 = some 21 :=
  (c5_implicit_head 21 22 _ rfl).1

/-! ## Claim C6 -/

set_option maxHeartbeats 2000000 in
/-- C6: re-registering a verb already present at a leaf is rejected with a
conflict error instead of overwriting — for any node state, any verb, and
any new handler — the only exception being an explicit HEAD replacing an
implicitly derived HEAD; concretely, `GET /x` registered twice errors on the
second call. -/
theorem c6_duplicate_rejected :
    (∀ (n : Node) (verb : String) (h2 : Nat) (ia : Bool),
        (nodeHandlerFor n verb).isSome = true →
        (verb = "HEAD" → nodeImplicitHead n = false) →
        setHandler n verb h2 ia = .error "already handles") ∧
    (∀ (h h2 : Nat) (t1 : Node),
        handleAdd emptyRoot "GET" "/x".toList h true true = .ok t1 →
        handleAdd t1 "GET" "/x".toList h2 true true = .error "already handles") := by
  constructor
  · intro n verb h2 ia hsome hhead
    unfold setHandler
    cases hm : Node.handlerMap n with
    | none =>
        unfold nodeHandlerFor at hsome
        rw [hm] at hsome
        simp at hsome
    | some m =>
        unfold nodeHandlerFor at hsome
        unfold nodeImplicitHead at hhead
        rw [hm] at hsome hhead
        simp only
        rw [if_pos]
        refine ⟨hsome, ?_⟩
        by_cases hv : verb = "HEAD"
        · exact Or.inr (hhead hv)
        · exact Or.inl hv
  · intro h h2 t1 reg1
    have ht1 : t1 = (handleAdd emptyRoot "GET" "/x".toList h true true).toOption.getD
        emptyRoot := by
      rw [reg1]
      rfl
    subst ht1
    rfl

/-- C6 (witness): a node whose table has GET rejects a second GET. -/
theorem c6_duplicate_rejected_witness :
    setHandler nodeWithGet "GET" 4 false = .error "already handles" :=
  c6_duplicate_rejected.1 nodeWithGet "GET" 4 false (by decide) (by decide)

/-! ## Claim C7 -/

theorem findIdx?_lt_length {α : Type} (l : List α) (p : α → Bool) (k : Nat)
    (h : l.findIdx? p = some k) : k < l.length := by
  induction l generalizing k with
  | nil => simp at h
  | cons a as ih =>
      rw [List.findIdx?_cons] at h
      by_cases hp : p a
      · simp [hp] at h
        subst h
        simp
      · simp [hp, List.findIdx?_succ] at h
        obtain ⟨j, hj, rfl⟩ := h
        have := ih j hj
        simp
        omega

/-- C7: catch-all insertion fails with an error both when a catch-all with a
different parameter name is already stored at that point, and when any path
text follows the catch-all token (a `/` after the marker); in neither case
does insertion return a leaf normally. -/
theorem c7_catchall_insert_errors :
    (∀ (fuel : Nat) (n : Node) (path : List Char) (wc : Option (List (List Char)))
        (f : Node → Except String Node) (cac : Node),
        path.headD ' ' = '*' →
        '/' ∉ path →
        Node.catchAllChild n = some cac →
        path.drop 1 ≠ Node.path cac →
        addPath (fuel + 1) n path wc false f =
          .error "Catch-all name doesn't match: overlapping catchalls") ∧
    (∀ (fuel : Nat) (n : Node) (path : List Char) (wc : Option (List (List Char)))
        (f : Node → Except String Node),
        path.headD ' ' = '*' →
        '/' ∈ path →
        ∃ e, addPath (fuel + 1) n path wc false f = .error e) := by
  constructor
  · intro fuel n path wc f cac hstar _hnoslash hcac hneq
    have hpne : path ≠ [] := by
      intro h
      subst h
      simp at hstar
    unfold addPath
    rw [if_neg hpne]
    rw [if_pos (by exact ⟨hstar, rfl⟩)]
    simp only [catchAllOrNew, hcac]
    rw [if_pos hneq]
  · intro fuel n path wc f hstar hmem
    cases path with
    | nil => simp at hstar
    | cons c0 rest =>
        simp only [List.headD_cons] at hstar
        subst hstar
        have hmem' : '/' ∈ rest := by
          cases hmem with
          | tail _ h => exact h
        have hany : rest.any (fun x => x = '/') = true := by
          rw [List.any_eq_true]
          exact ⟨'/', hmem', by simp⟩
        have hsome : (rest.findIdx? (fun x => x = '/')).isSome = true := by
          rw [List.findIdx?_isSome]
          exact hany
        obtain ⟨j, hj⟩ := Option.isSome_iff_exists.mp hsome
        have hjlt : j < rest.length := findIdx?_lt_length rest _ j hj
        have hfi : (('*' :: rest).findIdx? (fun x => x = '/')) = some (j + 1) := by
          rw [List.findIdx?_cons]
          simp [List.findIdx?_succ, hj]
        unfold addPath
        rw [if_neg (by simp)]
        rw [if_pos (by exact ⟨rfl, rfl⟩)]
        cases hcac : Node.catchAllChild n with
        | some c0 =>
            simp only [catchAllOrNew, hcac]
            by_cases hne : ('*' :: rest).drop 1 ≠ Node.path c0
            · exact ⟨_, by rw [if_pos hne]⟩
            · refine ⟨"/ after catch-all", ?_⟩
              rw [if_neg hne]
              rw [if_pos (by rw [hfi]; rfl)]
        | none =>
            refine ⟨"Catch-all name doesn't match: overlapping catchalls", ?_⟩
            simp only [catchAllOrNew, hcac]
            rw [if_pos ?_]
            have hTE : tokenEndOf ('*' :: rest) = j + 1 := by
              rw [tokenEndOf]
              simp only [List.headD_cons]
              rw [if_neg (by decide)]
              rw [hfi]
            rw [hTE]
            simp only [path_mk, List.drop_one, List.tail_cons, List.take_succ_cons]
            intro hcon
            have := congrArg List.length hcon
            rw [List.length_take] at this
            omega

/-- C7 (witness): a stored catch-all named `a` rejects `*b`, and a catch-all
followed by more path (`*a/b`) is rejected. -/
theorem c7_catchall_insert_errors_witness :
    addPath 3 nodeWithCatch "*b".toList none false Except.ok =
      .error "Catch-all name doesn't match: overlapping catchalls" ∧
    ∃ e, addPath 3 emptyRoot "*a/b".toList none false Except.ok = .error e :=
  ⟨c7_catchall_insert_errors.1 2 nodeWithCatch "*b".toList none Except.ok
      (mkNode "a".toList) rfl (by decide) rfl (by decide),
    c7_catchall_insert_errors.2 2 emptyRoot "*a/b".toList none Except.ok rfl (by decide)⟩

/-! ## Claim C4 -/

theorem hf_none3 : HFRes (none, none, []) := by
  intro h
  simp at h

theorem hf_wcCollect {stat wres : SearchRes} (tok : List Char)
    (hs : HFRes stat) : HFRes (wcCollect stat wres tok) := by
  unfold wcCollect
  split
  · cases hwn : wres.1 with
    | none => exact hs
    | some wn =>
        intro _
        rfl
  · exact hs

theorem hf_caPhase {a : SearchRes} (method : String) (ca : Option Node)
    (path : List Char) (h : HFRes a) : HFRes (caPhase method a ca path) := by
  unfold caPhase
  cases ca with
  | none => exact h
  | some cac =>
      simp only
      split
      · intro _
        rfl
      · exact h

/-- `node.search` returns a non-nil handler only together with a non-nil
found node (so the source's `wcNode.paramName` dereference in the wildcard
branch can never hit a nil node). -/
theorem search_hfRes (fuel : Nat) (n : Node) (method : String) (path : List Char) :
    HFRes (search fuel n method path) := by
  induction fuel generalizing n path with
  | zero => exact hf_none3
  | succ fuel IH =>
      rw [search]
      by_cases hp : path = []
      · rw [if_pos hp]
        cases Node.handlerMap n with
        | none => exact hf_none3
        | some m =>
            intro _
            rfl
      · rw [if_neg hp]
        have hstat : HFRes
            (match findStaticPair (Node.static n) (path.headD ' ') with
             | some pr =>
                 if (Node.path pr.2).length ≤ path.length ∧
                     Node.path pr.2 = path.take (Node.path pr.2).length then
                   search fuel pr.2 method (path.drop (Node.path pr.2).length)
                 else (none, none, [])
             | none => (none, none, [])) := by
          cases findStaticPair (Node.static n) (path.headD ' ') with
          | none => exact hf_none3
          | some pr =>
              simp only
              split
              · exact IH _ _
              · exact hf_none3
        generalize (match findStaticPair (Node.static n) (path.headD ' ') with
             | some pr =>
                 if (Node.path pr.2).length ≤ path.length ∧
                     Node.path pr.2 = path.take (Node.path pr.2).length then
                   search fuel pr.2 method (path.drop (Node.path pr.2).length)
                 else (none, none, [])
             | none => (none, none, [])) = stat at hstat ⊢
        simp only
        split
        · exact hstat
        · have hafter : HFRes
              (match Node.wildcardChild n with
               | some w =>
                   if path.take ((path.findIdx? (fun x => x = '/')).getD path.length) = []
                   then stat
                   else
                     wcCollect stat
                       (search fuel w method
                         (path.drop ((path.findIdx? (fun x => x = '/')).getD path.length)))
                       (path.take ((path.findIdx? (fun x => x = '/')).getD path.length))
               | none => stat) := by
            cases Node.wildcardChild n with
            | none => exact hstat
            | some w =>
                simp only
                split
                · exact hstat
                · exact hf_wcCollect _ hstat
          generalize (match Node.wildcardChild n with
               | some w =>
                   if path.take ((path.findIdx? (fun x => x = '/')).getD path.length) = []
                   then stat
                   else
                     wcCollect stat
                       (search fuel w method
                         (path.drop ((path.findIdx? (fun x => x = '/')).getD path.length)))
                       (path.take ((path.findIdx? (fun x => x = '/')).getD path.length))
               | none => stat) = afterWc at hafter ⊢
          split
          · exact hafter
          · exact hf_caPhase method _ path hafter

theorem wcCollect_found_stat {stat wres : SearchRes} (tok : List Char)
    (h : stat.1.isSome = true) : (wcCollect stat wres tok).1.isSome = true := by
  unfold wcCollect
  split
  · cases wres.1 with
    | none => exact h
    | some wn => rfl
  · exact h

theorem wcCollect_found_wres {stat wres : SearchRes} (tok : List Char)
    (h : wres.1.isSome = true) : (wcCollect stat wres tok).1.isSome = true := by
  unfold wcCollect
  split
  · cases hwn : wres.1 with
    | none =>
        rw [hwn] at h
        simp at h
    | some wn => rfl
  · rename_i hc
    rw [not_or] at hc
    obtain ⟨-, hc2⟩ := hc
    rw [Classical.not_and_iff_or_not_not] at hc2
    cases hc2 with
    | inl hni =>
        cases hs : stat.1 with
        | none =>
            rw [hs] at hni
            simp at hni
        | some s => rfl
    | inr hni =>
        rw [h] at hni
        simp at hni

theorem caPhase_found {a : SearchRes} (method : String) (ca : Option Node)
    (path : List Char) (h : a.1.isSome = true) :
    (caPhase method a ca path).1.isSome = true := by
  unfold caPhase
  cases ca with
  | none => exact h
  | some cac =>
      simp only
      split
      · rfl
      · exact h

theorem caPhase_found_ca {a : SearchRes} (method : String) (cac : Node)
    (path : List Char) : (caPhase method a (some cac) path).1.isSome = true := by
  unfold caPhase
  simp only
  split
  · rfl
  · rename_i hc
    rw [not_or] at hc
    obtain ⟨-, hc2⟩ := hc
    cases hs : a.1 with
    | none =>
        rw [hs] at hc2
        simp at hc2
    | some s => rfl

theorem wcCollect_handler_inv {stat wres : SearchRes} {tok : List Char}
    (h : (wcCollect stat wres tok).2.1.isSome = true) :
    wres.2.1.isSome = true ∨ stat.2.1.isSome = true := by
  unfold wcCollect at h
  revert h
  split
  · cases wres.1 with
    | none => exact fun h => Or.inr h
    | some wn => exact fun h => Or.inl h
  · exact fun h => Or.inr h

theorem caPhase_none {a : SearchRes} (method : String) (path : List Char) :
    caPhase method a none path = a := rfl

/-- If some verb yields a handler at a path, then every verb yields a found
node at that path: the 405 outcome (node exists, handler nil) is produced
whenever the path is routable at all. -/
theorem search_found_transfer (fuel : Nat) (n : Node) (m1 m2 : String) (path : List Char)
    (h : (search fuel n m1 path).2.1.isSome = true) :
    (search fuel n m2 path).1.isSome = true := by
  induction fuel generalizing n path with
  | zero => simp [search] at h
  | succ fuel IH =>
      rw [search] at h ⊢
      by_cases hp : path = []
      · rw [if_pos hp] at h ⊢
        cases hm : Node.handlerMap n with
        | none =>
            rw [hm] at h
            simp at h
        | some m => rfl
      · rw [if_neg hp] at h ⊢
        simp only at h ⊢
        have hT : (match findStaticPair (Node.static n) (path.headD ' ') with
             | some pr =>
                 if (Node.path pr.2).length ≤ path.length ∧
                     Node.path pr.2 = path.take (Node.path pr.2).length then
                   search fuel pr.2 m1 (path.drop (Node.path pr.2).length)
                 else (none, none, [])
             | none => (none, none, [])).2.1.isSome = true →
            (match findStaticPair (Node.static n) (path.headD ' ') with
             | some pr =>
                 if (Node.path pr.2).length ≤ path.length ∧
                     Node.path pr.2 = path.take (Node.path pr.2).length then
                   search fuel pr.2 m2 (path.drop (Node.path pr.2).length)
                 else (none, none, [])
             | none => (none, none, [])).1.isSome = true := by
          cases findStaticPair (Node.static n) (path.headD ' ') with
          | none =>
              intro hq
              simp at hq
          | some pr =>
              simp only
              split
              · exact fun hq => IH _ _ hq
              · intro hq
                simp at hq
        have hH2 : HFRes (match findStaticPair (Node.static n) (path.headD ' ') with
             | some pr =>
                 if (Node.path pr.2).length ≤ path.length ∧
                     Node.path pr.2 = path.take (Node.path pr.2).length then
                   search fuel pr.2 m2 (path.drop (Node.path pr.2).length)
                 else (none, none, [])
             | none => (none, none, [])) := by
          cases findStaticPair (Node.static n) (path.headD ' ') with
          | none => exact hf_none3
          | some pr =>
              simp only
              split
              · exact search_hfRes _ _ _ _
              · exact hf_none3
        generalize hg1 : (match findStaticPair (Node.static n) (path.headD ' ') with
             | some pr =>
                 if (Node.path pr.2).length ≤ path.length ∧
                     Node.path pr.2 = path.take (Node.path pr.2).length then
                   search fuel pr.2 m1 (path.drop (Node.path pr.2).length)
                 else (none, none, [])
             | none => (none, none, [])) = s1 at h hT
        generalize hg2 : (match findStaticPair (Node.static n) (path.headD ' ') with
             | some pr =>
                 if (Node.path pr.2).length ≤ path.length ∧
                     Node.path pr.2 = path.take (Node.path pr.2).length then
                   search fuel pr.2 m2 (path.drop (Node.path pr.2).length)
                 else (none, none, [])
             | none => (none, none, [])) = s2 at hT hH2 ⊢
        by_cases hc1 : s1.2.1.isSome = true
        · -- the m1 handler (if any) came from the static branch
          have hs2f : s2.1.isSome = true := hT hc1
          by_cases hc2 : s2.2.1.isSome = true
          · rw [if_pos hc2]
            exact hH2 hc2
          · rw [if_neg hc2]
            have ha2 : (match Node.wildcardChild n with
               | some w =>
                   if path.take ((path.findIdx? (fun x => x = '/')).getD path.length) = []
                   then s2
                   else
                     wcCollect s2
                       (search fuel w m2
                         (path.drop ((path.findIdx? (fun x => x = '/')).getD path.length)))
                       (path.take ((path.findIdx? (fun x => x = '/')).getD path.length))
               | none => s2).1.isSome = true := by
              cases Node.wildcardChild n with
              | none => exact hs2f
              | some w =>
                  simp only
                  split
                  · exact hs2f
                  · exact wcCollect_found_stat _ hs2f
            generalize (match Node.wildcardChild n with
               | some w =>
                   if path.take ((path.findIdx? (fun x => x = '/')).getD path.length) = []
                   then s2
                   else
                     wcCollect s2
                       (search fuel w m2
                         (path.drop ((path.findIdx? (fun x => x = '/')).getD path.length)))
                       (path.take ((path.findIdx? (fun x => x = '/')).getD path.length))
               | none => s2) = a2 at ha2 ⊢
            split
            · exact ha2
            · exact caPhase_found m2 _ path ha2
        · -- no static handler for m1: the handler came from wildcard or catch-all
          rw [if_neg hc1] at h
          cases hwc : Node.wildcardChild n with
          | none =>
              rw [hwc] at h
              simp only at h ⊢
              rw [if_neg hc1] at h
              cases hca : Node.catchAllChild n with
              | none =>
                  rw [hca, caPhase_none] at h
                  exact absurd h hc1
              | some cac =>
                  by_cases hc2 : s2.2.1.isSome = true
                  · rw [if_pos hc2]
                    exact hH2 hc2
                  · rw [if_neg hc2, if_neg hc2]
                    exact caPhase_found_ca m2 cac path
          | some w =>
              rw [hwc] at h
              simp only at h ⊢
              have hWT := fun hq => IH w
                (path.drop ((path.findIdx? (fun x => x = '/')).getD path.length)) hq
              have hWH2 : HFRes (search fuel w m2
                  (path.drop ((path.findIdx? (fun x => x = '/')).getD path.length))) :=
                search_hfRes _ _ _ _
              generalize hw1 : search fuel w m1
                  (path.drop ((path.findIdx? (fun x => x = '/')).getD path.length)) = w1
                  at h hWT
              generalize hw2 : search fuel w m2
                  (path.drop ((path.findIdx? (fun x => x = '/')).getD path.length)) = w2
                  at hWT hWH2 ⊢
              by_cases htok :
                  path.take ((path.findIdx? (fun x => x = '/')).getD path.length) = []
              · rw [if_pos htok] at h ⊢
                rw [if_neg hc1] at h
                cases hca : Node.catchAllChild n with
                | none =>
                    rw [hca, caPhase_none] at h
                    exact absurd h hc1
                | some cac =>
                    by_cases hc2 : s2.2.1.isSome = true
                    · rw [if_pos hc2]
                      exact hH2 hc2
                    · rw [if_neg hc2, if_neg hc2]
                      exact caPhase_found_ca m2 cac path
              · rw [if_neg htok] at h ⊢
                by_cases hcw : (wcCollect s1 w1
                    (path.take ((path.findIdx? (fun x => x = '/')).getD path.length))).2.1.isSome
                    = true
                · -- m1 found a handler through the wildcard child
                  have hw12 : w1.2.1.isSome = true := by
                    cases wcCollect_handler_inv hcw with
                    | inl hh => exact hh
                    | inr hh => exact absurd hh hc1
                  have hw2f : w2.1.isSome = true := hWT hw12
                  by_cases hc2 : s2.2.1.isSome = true
                  · rw [if_pos hc2]
                    exact hH2 hc2
                  · rw [if_neg hc2]
                    have ha2 : (wcCollect s2 w2
                        (path.take ((path.findIdx? (fun x => x = '/')).getD
                          path.length))).1.isSome = true := wcCollect_found_wres _ hw2f
                    split
                    · exact ha2
                    · exact caPhase_found m2 _ path ha2
                · -- m1's handler came from the catch-all
                  rw [if_neg hcw] at h
                  cases hca : Node.catchAllChild n with
                  | none =>
                      rw [hca, caPhase_none] at h
                      exact absurd h hcw
                  | some cac =>
                      by_cases hc2 : s2.2.1.isSome = true
                      · rw [if_pos hc2]
                        exact hH2 hc2
                      · rw [if_neg hc2]
                        split
                        · rename_i hok
                          exact hf_wcCollect _ hH2 hok
                        · exact caPhase_found_ca m2 cac path

theorem hm_first_entry (m : HandlerMap) (e : String × Nat) (es : List (String × Nat))
    (h : m.entries = e :: es) : hmGet m e.1 = some e.2 := by
  unfold hmGet
  rw [h]
  simp [List.find?]

theorem findStaticPair_mem {l : List (Char × Node)} {c : Char} {pr : Char × Node}
    (h : findStaticPair l c = some pr) : pr ∈ l :=
  List.mem_of_find?_eq_some h

theorem wcCollect_found_inv {stat wres : SearchRes} {tok : List Char}
    (h : (wcCollect stat wres tok).1.isSome = true) :
    wres.1.isSome = true ∨ stat.1.isSome = true := by
  unfold wcCollect at h
  revert h
  split
  · cases hwn : wres.1 with
    | none => exact fun h => Or.inr h
    | some wn => exact fun _ => Or.inl (by simp [hwn])
  · exact fun h => Or.inr h

theorem wcCollect_handler_of_wres {stat wres : SearchRes} (tok : List Char)
    (hf : HFRes wres) (h : wres.2.1.isSome = true) :
    (wcCollect stat wres tok).2.1.isSome = true := by
  unfold wcCollect
  rw [if_pos (Or.inl h)]
  cases hwn : wres.1 with
  | none =>
      have := hf h
      rw [hwn] at this
      simp at this
  | some wn => exact h

theorem caPhase_handler_of_ca {a : SearchRes} (method : String) (cac : Node)
    (path : List Char) (hh : (nodeHandlerFor cac method).isSome = true) :
    (caPhase method a (some cac) path).2.1.isSome = true := by
  unfold caPhase
  simp only
  rw [if_pos (Or.inl hh)]
  exact hh

/-- Decomposition of the well-formedness check at positive fuel. -/
theorem wfHm_succ {fuel : Nat} {n : Node} (h : wfHm (fuel + 1) n = true) :
    (∀ m, Node.handlerMap n = some m → m.entries ≠ []) ∧
    (∀ pr ∈ Node.static n, wfHm fuel pr.2 = true) ∧
    (∀ w, Node.wildcardChild n = some w → wfHm fuel w = true) ∧
    (∀ cac, Node.catchAllChild n = some cac →
      (∃ mc, Node.handlerMap cac = some mc ∧ mc.entries ≠ []) ∧ wfHm fuel cac = true) := by
  rw [wfHm] at h
  simp only [Bool.and_eq_true] at h
  obtain ⟨⟨⟨h1, h2⟩, h3⟩, h4⟩ := h
  refine ⟨?_, ?_, ?_, ?_⟩
  · intro m hm
    rw [hm] at h1
    simpa [List.isEmpty_iff] using h1
  · intro pr hpr
    exact List.all_eq_true.mp h2 pr hpr
  · intro w hw
    rw [hw] at h3
    exact h3
  · intro cac hcac
    rw [hcac] at h4
    simp only [Bool.and_eq_true] at h4
    refine ⟨?_, h4.2⟩
    rcases hmc : Node.handlerMap cac with - | mc
    · rw [hmc] at h4
      simp at h4
    · rw [hmc] at h4
      exact ⟨mc, rfl, by simpa [List.isEmpty_iff] using h4.1⟩

/-- A handler found through the static scan propagates to the final result. -/
theorem searchStep_handler_static (fuel : Nat) (n : Node) (m' : String)
    (path : List Char) (hp : path ≠ [])
    (hA : (match findStaticPair (Node.static n) (path.headD ' ') with
           | some pr =>
               if (Node.path pr.2).length ≤ path.length ∧
                   Node.path pr.2 = path.take (Node.path pr.2).length then
                 search fuel pr.2 m' (path.drop (Node.path pr.2).length)
               else (none, none, [])
           | none => (none, none, [])).2.1.isSome = true) :
    (search (fuel + 1) n m' path).2.1.isSome = true := by
  rw [search]
  rw [if_neg hp]
  simp only
  rw [if_pos hA]
  exact hA

/-- A handler found by the wildcard sub-search propagates to the final
result (when the candidate token is nonempty). -/
theorem searchStep_handler_wc (fuel : Nat) (n : Node) (m' : String)
    (path : List Char) (w : Node) (hp : path ≠ [])
    (hw : Node.wildcardChild n = some w)
    (htok : ¬path.take ((path.findIdx? (fun x => x = '/')).getD path.length) = [])
    (hwres : (search fuel w m'
        (path.drop ((path.findIdx? (fun x => x = '/')).getD path.length))).2.1.isSome = true) :
    (search (fuel + 1) n m' path).2.1.isSome = true := by
  rw [search]
  rw [if_neg hp]
  simp only
  by_cases hc : (match findStaticPair (Node.static n) (path.headD ' ') with
           | some pr =>
               if (Node.path pr.2).length ≤ path.length ∧
                   Node.path pr.2 = path.take (Node.path pr.2).length then
                 search fuel pr.2 m' (path.drop (Node.path pr.2).length)
               else (none, none, [])
           | none => (none, none, [])).2.1.isSome = true
  · rw [if_pos hc]
    exact hc
  · rw [if_neg hc]
    rw [hw]
    simp only
    rw [if_neg htok]
    have hcoll := @wcCollect_handler_of_wres
      (match findStaticPair (Node.static n) (path.headD ' ') with
           | some pr =>
               if (Node.path pr.2).length ≤ path.length ∧
                   Node.path pr.2 = path.take (Node.path pr.2).length then
                 search fuel pr.2 m' (path.drop (Node.path pr.2).length)
               else (none, none, [])
           | none => (none, none, []))
      (search fuel w m'
        (path.drop ((path.findIdx? (fun x => x = '/')).getD path.length)))
      (path.take ((path.findIdx? (fun x => x = '/')).getD path.length))
      (search_hfRes fuel w m' _) hwres
    rw [if_pos hcoll]
    exact hcoll

/-- A handler stored at the catch-all child for this verb propagates to the
final result. -/
theorem searchStep_handler_ca (fuel : Nat) (n : Node) (m' : String)
    (path : List Char) (cac : Node) (hp : path ≠ [])
    (hca : Node.catchAllChild n = some cac)
    (hh : (nodeHandlerFor cac m').isSome = true) :
    (search (fuel + 1) n m' path).2.1.isSome = true := by
  rw [search]
  rw [if_neg hp]
  simp only
  generalize (match findStaticPair (Node.static n) (path.headD ' ') with
           | some pr =>
               if (Node.path pr.2).length ≤ path.length ∧
                   Node.path pr.2 = path.take (Node.path pr.2).length then
                 search fuel pr.2 m' (path.drop (Node.path pr.2).length)
               else (none, none, [])
           | none => (none, none, [])) = s0
  by_cases hc : s0.2.1.isSome = true
  · rw [if_pos hc]
    exact hc
  · rw [if_neg hc]
    cases hwc : Node.wildcardChild n with
    | none =>
        simp only
        rw [if_neg hc]
        rw [hca]
        exact caPhase_handler_of_ca m' cac path hh
    | some w =>
        simp only
        by_cases htok :
            path.take ((path.findIdx? (fun x => x = '/')).getD path.length) = []
        · rw [if_pos htok]
          rw [if_neg hc]
          rw [hca]
          exact caPhase_handler_of_ca m' cac path hh
        · rw [if_neg htok]
          by_cases hcw : (wcCollect s0
              (search fuel w m'
                (path.drop ((path.findIdx? (fun x => x = '/')).getD path.length)))
              (path.take ((path.findIdx? (fun x => x = '/')).getD
                path.length))).2.1.isSome = true
          · rw [if_pos hcw]
            exact hcw
          · rw [if_neg hcw]
            rw [hca]
            exact caPhase_handler_of_ca m' cac path hh

/-- Under well-formed handler tables, every found node testifies that some
verb has a handler at this path: a nil-node result means the path is not
routable under any verb. -/
theorem search_found_exists_verb (fuel : Nat) (n : Node) (method : String)
    (path : List Char) (hwf : wfHm fuel n = true)
    (h : (search fuel n method path).1.isSome = true) :
    ∃ m', (search fuel n m' path).2.1.isSome = true := by
  induction fuel generalizing n path with
  | zero => simp [search] at h
  | succ fuel IH =>
      obtain ⟨hwf1, hwf2, hwf3, hwf4⟩ := wfHm_succ hwf
      rw [search] at h
      by_cases hp : path = []
      · rw [if_pos hp] at h
        cases hm : Node.handlerMap n with
        | none =>
            rw [hm] at h
            simp at h
        | some m =>
            rcases he : m.entries with - | ⟨e, es⟩
            · exact absurd he (hwf1 m hm)
            · refine ⟨e.1, ?_⟩
              rw [search, if_pos hp, hm]
              simp only
              rw [hm_first_entry m e es he]
              rfl
      · rw [if_neg hp] at h
        simp only at h
        by_cases hc : (match findStaticPair (Node.static n) (path.headD ' ') with
             | some pr =>
                 if (Node.path pr.2).length ≤ path.length ∧
                     Node.path pr.2 = path.take (Node.path pr.2).length then
                   search fuel pr.2 method (path.drop (Node.path pr.2).length)
                 else (none, none, [])
             | none => (none, none, [])).2.1.isSome = true
        · exact ⟨method, searchStep_handler_static fuel n method path hp hc⟩
        · rw [if_neg hc] at h
          by_cases hsf : (match findStaticPair (Node.static n) (path.headD ' ') with
             | some pr =>
                 if (Node.path pr.2).length ≤ path.length ∧
                     Node.path pr.2 = path.take (Node.path pr.2).length then
                   search fuel pr.2 method (path.drop (Node.path pr.2).length)
                 else (none, none, [])
             | none => (none, none, [])).1.isSome = true
          · -- the static branch found a node (without a handler for `method`)
            rcases hfind : findStaticPair (Node.static n) (path.headD ' ') with - | pr
            · rw [hfind] at hsf
              simp at hsf
            · rw [hfind] at hsf
              simp only at hsf
              by_cases hpre : (Node.path pr.2).length ≤ path.length ∧
                  Node.path pr.2 = path.take (Node.path pr.2).length
              · rw [if_pos hpre] at hsf
                have hwfc : wfHm fuel pr.2 = true := hwf2 pr (findStaticPair_mem hfind)
                obtain ⟨m', hm'⟩ := IH pr.2 (path.drop (Node.path pr.2).length) hwfc hsf
                refine ⟨m', searchStep_handler_static fuel n m' path hp ?_⟩
                rw [hfind]
                simp only
                rw [if_pos hpre]
                exact hm'
              · rw [if_neg hpre] at hsf
                simp at hsf
          · -- found came from the wildcard or catch-all part
            cases hwc : Node.wildcardChild n with
            | none =>
                rw [hwc] at h
                simp only at h
                rw [if_neg hc] at h
                cases hca : Node.catchAllChild n with
                | none =>
                    rw [hca, caPhase_none] at h
                    exact absurd h hsf
                | some cac =>
                    obtain ⟨⟨mc, hmc, hne⟩, -⟩ := hwf4 cac hca
                    rcases he : mc.entries with - | ⟨e, es⟩
                    · exact absurd he hne
                    · refine ⟨e.1, searchStep_handler_ca fuel n e.1 path cac hp hca ?_⟩
                      unfold nodeHandlerFor
                      rw [hmc]
                      simp only
                      rw [hm_first_entry mc e es he]
                      rfl
            | some w =>
                rw [hwc] at h
                simp only at h
                by_cases htok :
                    path.take ((path.findIdx? (fun x => x = '/')).getD path.length) = []
                · rw [if_pos htok] at h
                  rw [if_neg hc] at h
                  cases hca : Node.catchAllChild n with
                  | none =>
                      rw [hca, caPhase_none] at h
                      exact absurd h hsf
                  | some cac =>
                      obtain ⟨⟨mc, hmc, hne⟩, -⟩ := hwf4 cac hca
                      rcases he : mc.entries with - | ⟨e, es⟩
                      · exact absurd he hne
                      · refine ⟨e.1, searchStep_handler_ca fuel n e.1 path cac hp hca ?_⟩
                        unfold nodeHandlerFor
                        rw [hmc]
                        simp only
                        rw [hm_first_entry mc e es he]
                        rfl
                · rw [if_neg htok] at h
                  by_cases hacond : (wcCollect
                      (match findStaticPair (Node.static n) (path.headD ' ') with
                       | some pr =>
                           if (Node.path pr.2).length ≤ path.length ∧
                               Node.path pr.2 = path.take (Node.path pr.2).length then
                             search fuel pr.2 method (path.drop (Node.path pr.2).length)
                           else (none, none, [])
                       | none => (none, none, []))
                      (search fuel w method
                        (path.drop ((path.findIdx? (fun x => x = '/')).getD path.length)))
                      (path.take ((path.findIdx? (fun x => x = '/')).getD
                        path.length))).2.1.isSome = true
                  · cases wcCollect_handler_inv hacond with
                    | inl hh =>
                        exact ⟨method, searchStep_handler_wc fuel n method path w hp hwc
                          htok hh⟩
                    | inr hh => exact absurd hh hc
                  · rw [if_neg hacond] at h
                    cases hca : Node.catchAllChild n with
                    | none =>
                        rw [hca, caPhase_none] at h
                        cases wcCollect_found_inv h with
                        | inl hwf' =>
                            have hwfw : wfHm fuel w = true := hwf3 w hwc
                            obtain ⟨m', hm'⟩ := IH w _ hwfw hwf'
                            exact ⟨m', searchStep_handler_wc fuel n m' path w hp hwc
                              htok hm'⟩
                        | inr hsf' => exact absurd hsf' hsf
                    | some cac =>
                        obtain ⟨⟨mc, hmc, hne⟩, -⟩ := hwf4 cac hca
                        rcases he : mc.entries with - | ⟨e, es⟩
                        · exact absurd he hne
                        · refine ⟨e.1, searchStep_handler_ca fuel n e.1 path cac hp hca ?_⟩
                          unfold nodeHandlerFor
                          rw [hmc]
                          simp only
                          rw [hm_first_entry mc e es he]
                          rfl

/-- C4: the 404 and 405 outcomes are always distinguishable.  (1) If a path
yields a handler under some verb, then a match under any other verb still
returns a non-nil node (so a registered path never collapses to the 404
shape for a verb it lacks); (2) under well-formed handler tables, a non-nil
node implies some verb has a handler there, so a path that was never
registered — no verb matches — yields a nil node; (3) a non-nil handler
always comes with a non-nil node.  Concretely: with only `GET /widgets`,
`match(POST, "/widgets")` is (node-exists, nil handler) and
`match(GET, "/nothere")` is (nil node). -/
theorem c4_404_405_distinguishable :
    (∀ (fuel : Nat) (n : Node) (m1 m2 : String) (path : List Char),
        (search fuel n m1 path).2.1.isSome = true →
        (search fuel n m2 path).1.isSome = true) ∧
    (∀ (fuel : Nat) (n : Node) (method : String) (path : List Char),
        wfHm fuel n = true →
        (search fuel n method path).1.isSome = true →
        ∃ m', (search fuel n m' path).2.1.isSome = true) ∧
    (∀ (fuel : Nat) (n : Node) (method : String) (path : List Char),
        (search fuel n method path).2.1.isSome = true →
        (search fuel n method path).1.isSome = true) ∧
    (matchRoute treeWidgets "POST" "/widgets".toList).1.isSome = true ∧
    (matchRoute treeWidgets "POST" "/widgets".toList).2.1 = none ∧
    (matchRoute treeWidgets "GET" "/nothere".toList).1.isNone = true :=
  ⟨search_found_transfer,
    search_found_exists_verb,
    fun fuel n method path => search_hfRes fuel n method path,
    by decide, by decide, by decide⟩

/-- C4 (witness): the widgets tree instantiates all three clauses. -/
theorem c4_404_405_distinguishable_witness :
    (search 9 treeWidgets "POST" "widgets".toList).1.isSome = true ∧
    (∃ m', (search 9 treeWidgets m' "widgets".toList).2.1.isSome = true) ∧
    (search 9 treeWidgets "GET" "widgets".toList).1.isSome = true :=
  ⟨c4_404_405_distinguishable.1 9 treeWidgets "GET" "POST" "widgets".toList (by decide),
    c4_404_405_distinguishable.2.1 9 treeWidgets "POST" "widgets".toList (by decide)
      (by decide),
    c4_404_405_distinguishable.2.2.1 9 treeWidgets "GET" "widgets".toList (by decide)⟩

/-! ## Claim C9 -/

theorem resFH_wcCollect (stat wres : SearchRes) (tok : List Char) :
    resFH (wcCollect stat wres tok) = wcCollectFH (resFH stat) (resFH wres) := by
  unfold wcCollect wcCollectFH resFH
  simp only
  split
  · cases wres.1 <;> rfl
  · rfl

theorem resFH_caPhase (method : String) (a : SearchRes) (ca : Option Node)
    (path : List Char) :
    resFH (caPhase method a ca path) = caPhaseFH method (resFH a) ca := by
  unfold caPhase caPhaseFH resFH
  cases ca with
  | none => rfl
  | some cac =>
      simp only
      split
      · rfl
      · rfl

/-- The control part of `search` coincides with the decode-free skeleton
`searchFH`: percent-decoding is applied only to parameter values, never to
the matching decision. -/
theorem search_resFH (fuel : Nat) (n : Node) (method : String) (path : List Char) :
    resFH (search fuel n method path) = searchFH fuel n method path := by
  induction fuel generalizing n path with
  | zero => rfl
  | succ fuel IH =>
      rw [search, searchFH]
      by_cases hp : path = []
      · rw [if_pos hp, if_pos hp]
        cases Node.handlerMap n <;> rfl
      · rw [if_neg hp, if_neg hp]
        have hstat : resFH
            (match findStaticPair (Node.static n) (path.headD ' ') with
             | some pr =>
                 if (Node.path pr.2).length ≤ path.length ∧
                     Node.path pr.2 = path.take (Node.path pr.2).length then
                   search fuel pr.2 method (path.drop (Node.path pr.2).length)
                 else (none, none, [])
             | none => (none, none, [])) =
            (match findStaticPair (Node.static n) (path.headD ' ') with
             | some pr =>
                 if (Node.path pr.2).length ≤ path.length ∧
                     Node.path pr.2 = path.take (Node.path pr.2).length then
                   searchFH fuel pr.2 method (path.drop (Node.path pr.2).length)
                 else (none, none)
             | none => (none, none)) := by
          cases findStaticPair (Node.static n) (path.headD ' ') with
          | none => rfl
          | some pr =>
              simp only
              split
              · exact IH _ _
              · rfl
        generalize hs1 : (match findStaticPair (Node.static n) (path.headD ' ') with
             | some pr =>
                 if (Node.path pr.2).length ≤ path.length ∧
                     Node.path pr.2 = path.take (Node.path pr.2).length then
                   search fuel pr.2 method (path.drop (Node.path pr.2).length)
                 else (none, none, [])
             | none => (none, none, [])) = statS at hstat ⊢
        generalize hs2 : (match findStaticPair (Node.static n) (path.headD ' ') with
             | some pr =>
                 if (Node.path pr.2).length ≤ path.length ∧
                     Node.path pr.2 = path.take (Node.path pr.2).length then
                   searchFH fuel pr.2 method (path.drop (Node.path pr.2).length)
                 else (none, none)
             | none => (none, none)) = statF at hstat ⊢
        dsimp only
        have h21 : statF.2 = statS.2.1 := by
          rw [← hstat]
          rfl
        rw [h21]
        by_cases hcond : statS.2.1.isSome
        · rw [if_pos hcond, if_pos hcond]
          exact hstat
        · rw [if_neg hcond, if_neg hcond]
          have hafter : resFH
              (match Node.wildcardChild n with
               | some w =>
                   if path.take ((path.findIdx? (fun x => x = '/')).getD path.length) = []
                   then statS
                   else
                     wcCollect statS
                       (search fuel w method
                         (path.drop ((path.findIdx? (fun x => x = '/')).getD path.length)))
                       (path.take ((path.findIdx? (fun x => x = '/')).getD path.length))
               | none => statS) =
              (match Node.wildcardChild n with
               | some w =>
                   if path.take ((path.findIdx? (fun x => x = '/')).getD path.length) = []
                   then statF
                   else
                     wcCollectFH statF
                       (searchFH fuel w method
                         (path.drop ((path.findIdx? (fun x => x = '/')).getD path.length)))
               | none => statF) := by
            cases Node.wildcardChild n with
            | none => exact hstat
            | some w =>
                simp only
                split
                · exact hstat
                · rw [resFH_wcCollect, hstat, IH]
          generalize ha1 : (match Node.wildcardChild n with
               | some w =>
                   if path.take ((path.findIdx? (fun x => x = '/')).getD path.length) = []
                   then statS
                   else
                     wcCollect statS
                       (search fuel w method
                         (path.drop ((path.findIdx? (fun x => x = '/')).getD path.length)))
                       (path.take ((path.findIdx? (fun x => x = '/')).getD path.length))
               | none => statS) = aS at hafter ⊢
          generalize ha2 : (match Node.wildcardChild n with
               | some w =>
                   if path.take ((path.findIdx? (fun x => x = '/')).getD path.length) = []
                   then statF
                   else
                     wcCollectFH statF
                       (searchFH fuel w method
                         (path.drop ((path.findIdx? (fun x => x = '/')).getD path.length)))
               | none => statF) = aF at hafter ⊢
          have ha21 : aF.2 = aS.2.1 := by
            rw [← hafter]
            rfl
          rw [ha21]
          by_cases hcond2 : aS.2.1.isSome
          · rw [if_pos hcond2, if_pos hcond2]
            exact hafter
          · rw [if_neg hcond2, if_neg hcond2]
            rw [resFH_caPhase, hafter]

/-- C9: a decode failure for a captured segment never turns a successful
match into a failed one — the found node and handler of `search` coincide
with the decode-free skeleton `searchFH` — and the captured value is the
decoded text when decoding succeeds and the raw, still-escaped token when it
fails; concretely, `/:name` matches `/%zz` (undecodable) with the raw value
and `/%41` with the decoded value. -/
theorem c9_decode_fallback :
    (∀ (fuel : Nat) (n : Node) (method : String) (path : List Char),
        (search fuel n method path).1 = (searchFH fuel n method path).1 ∧
        (search fuel n method path).2.1 = (searchFH fuel n method path).2) ∧
    (∀ tok : List Char, pathUnescape tok = none → unescapeOrRaw tok = tok) ∧
    (∀ tok u : List Char, pathUnescape tok = some u → unescapeOrRaw tok = u) ∧
    (matchRoute treeName "GET" "/%zz".toList).2.1 = some 6 ∧
    (matchRoute treeName "GET" "/%zz".toList).2.2 = [⟨"name".toList, "%zz".toList⟩] ∧
    (matchRoute treeName "GET" "/%41".toList).2.2 = [⟨"name".toList, "A".toList⟩] := by
  refine ⟨?_, ?_, ?_, by decide, by decide, by decide⟩
  · intro fuel n method path
    have h := search_resFH fuel n method path
    exact ⟨by rw [← h]; rfl, by rw [← h]; rfl⟩
  · intro tok h
    unfold unescapeOrRaw
    rw [h]
  · intro tok u h
    unfold unescapeOrRaw
    rw [h]

/-- C9 (witness): instantiating the fallback clauses on `%zz` and `%41`. -/
theorem c9_decode_fallback_witness :
    unescapeOrRaw "%zz".toList = "%zz".toList ∧
    unescapeOrRaw "%41".toList = "A".toList ∧
    (search 3 treeName "GET" "x".toList).1 = (searchFH 3 treeName "GET" "x".toList).1 :=
  ⟨c9_decode_fallback.2.1 "%zz".toList (by decide),
    c9_decode_fallback.2.2.1 "%41".toList "A".toList (by decide),
    (c9_decode_fallback.1 3 treeName "GET" "x".toList).1⟩

/-! ## Claim C10 -/

theorem digitsFoldl_le (s : List Char) (a : Nat) :
    a ≤ s.foldl (fun x c => x * 10 + (c.toNat - '0'.toNat)) a := by
  induction s generalizing a with
  | nil => simp
  | cons c cs ih =>
      simp only [List.foldl_cons]
      exact le_trans (by omega) (ih (a * 10 + (c.toNat - '0'.toNat)))

theorem parseGo_ok (s : List Char) (acc : Nat)
    (hd : ∀ c ∈ s, ('0' ≤ c) ∧ (c ≤ '9'))
    (hlt : s.foldl (fun x c => x * 10 + (c.toNat - '0'.toNat)) acc < 2 ^ 64) :
    parseUint64.go s acc = .ok (s.foldl (fun x c => x * 10 + (c.toNat - '0'.toNat)) acc) := by
  induction s generalizing acc with
  | nil => simp [parseUint64.go]
  | cons c cs ih =>
      have hc := hd c (List.mem_cons_self c cs)
      rw [List.foldl_cons] at hlt ⊢
      have hv : acc * 10 + (c.toNat - '0'.toNat) < 2 ^ 64 :=
        lt_of_le_of_lt (digitsFoldl_le cs _) hlt
      unfold parseUint64.go
      rw [if_pos (by simp [hc.1, hc.2])]
      simp only
      rw [if_pos hv]
      exact ih _ (fun d hd2 => hd d (List.mem_cons_of_mem c hd2)) hlt

theorem parseGo_err (s : List Char) (acc : Nat)
    (h : ∃ c ∈ s, ¬(('0' ≤ c) ∧ (c ≤ '9'))) :
    ∃ e, parseUint64.go s acc = .error e := by
  induction s generalizing acc with
  | nil => simp at h
  | cons c cs ih =>
      unfold parseUint64.go
      by_cases hc : ('0' ≤ c) ∧ (c ≤ '9')
      · have h' : ∃ d ∈ cs, ¬(('0' ≤ d) ∧ (d ≤ '9')) := by
          rcases h with ⟨d, hdm, hnd⟩
          cases hdm with
          | head => exact absurd hc hnd
          | tail _ hmem => exact ⟨d, hmem, hnd⟩
        rw [if_pos (by simp [hc.1, hc.2])]
        simp only
        split
        · exact ih _ h'
        · exact ⟨"range", rfl⟩
      · refine ⟨"syntax", ?_⟩
        rw [if_neg ?_]
        simp only [Bool.and_eq_true, decide_eq_true_eq]
        exact hc

/-- C10: `Params.Uint32` succeeds on any parameter value that is a decimal
string representable in 64 bits, returning it reduced modulo 2^32 (values
above 2^32-1 are silently truncated, not range-rejected), while an absent or
non-numeric value yields a parse error. -/
theorem c10_uint32_truncates :
    (∀ (ps : List Param) (name s : List Char),
        paramsGet ps name = some s →
        s ≠ [] →
        (∀ c ∈ s, ('0' ≤ c) ∧ (c ≤ '9')) →
        digitsVal s < 2 ^ 64 →
        paramsUint32 ps name = .ok (digitsVal s % 2 ^ 32)) ∧
    (∀ (ps : List Param) (name : List Char),
        paramsGet ps name = none →
        ∃ e, paramsUint32 ps name = .error e) ∧
    (∀ (ps : List Param) (name s : List Char),
        paramsGet ps name = some s →
        (∃ c ∈ s, ¬(('0' ≤ c) ∧ (c ≤ '9'))) →
        ∃ e, paramsUint32 ps name = .error e) := by
  refine ⟨?_, ?_, ?_⟩
  · intro ps name s hget hne hdig hlt
    unfold paramsUint32 paramsText
    rw [hget]
    simp only [Option.getD_some]
    unfold parseUint64
    rw [if_neg hne]
    rw [parseGo_ok s 0 hdig (by simpa [digitsVal] using hlt)]
    rfl
  · intro ps name hget
    unfold paramsUint32 paramsText
    rw [hget]
    exact ⟨"syntax", rfl⟩
  · intro ps name s hget hnd
    unfold paramsUint32 paramsText
    rw [hget]
    simp only [Option.getD_some]
    have hne : s ≠ [] := by
      rcases hnd with ⟨c, hc, _⟩
      intro h
      subst h
      cases hc
    unfold parseUint64
    rw [if_neg hne]
    obtain ⟨e, he⟩ := parseGo_err s 0 hnd
    rw [he]
    exact ⟨e, rfl⟩

/-- C10 (witness): value 4294967301 = 2^32 + 5 parses and truncates to 5. -/
theorem c10_uint32_truncates_witness :
    paramsUint32 [⟨"n".toList, "4294967301".toList⟩] "n".toList =
      .ok (digitsVal "4294967301".toList % 2 ^ 32) ∧
    digitsVal "4294967301".toList % 2 ^ 32 = 5 :=
  ⟨c10_uint32_truncates.1 _ _ _ rfl (by decide) (by decide) (by decide), by decide⟩

/-! ## Claim C8: insertion preserves structural well-formedness -/

theorem bind_ok_inv {α β : Type} {x : Except String α} {g : α → Except String β} {b : β}
    (h : x >>= g = .ok b) : ∃ a, x = .ok a ∧ g a = .ok b := by
  cases x with
  | error e =>
      exact absurd h (by simp [Bind.bind, Except.bind])
  | ok a =>
      refine ⟨a, rfl, ?_⟩
      simpa [Bind.bind, Except.bind] using h

theorem not_mem_take_findIdx (path : List Char) (k : Nat)
    (h : path.findIdx? (fun x => x = '/') = some k) : '/' ∉ path.take k := by
  obtain ⟨hk, -, hbefore⟩ := List.findIdx?_eq_some_iff_getElem.mp h
  intro hmem
  obtain ⟨j, hj, hget⟩ := List.getElem_of_mem hmem
  have hjk : j < k := lt_of_lt_of_le hj (by simp [List.length_take])
  have := hbefore j hjk
  rw [List.getElem_take] at hget
  rw [hget] at this
  simp at this

theorem not_mem_of_findIdx_none (path : List Char)
    (h : path.findIdx? (fun x => x = '/') = none) : '/' ∉ path := by
  intro hmem
  have := List.findIdx?_eq_none_iff.mp h '/' hmem
  simp at this

theorem commonLen_le_left : ∀ a b : List Char, commonLen a b ≤ a.length
  | [], _ => by simp [commonLen]
  | _ :: _, [] => by simp [commonLen]
  | a :: as, b :: bs => by
      rw [commonLen]
      split
      · simpa using commonLen_le_left as bs
      · simp

theorem commonLen_take_eq : ∀ a b : List Char,
    a.take (commonLen a b) = b.take (commonLen a b)
  | [], _ => by simp [commonLen]
  | _ :: _, [] => by simp [commonLen]
  | a :: as, b :: bs => by
      rw [commonLen]
      split
      · rename_i hab
        subst hab
        simp [commonLen_take_eq as bs]
      · simp

theorem commonLen_pos {a b : List Char} (ha : a ≠ []) (hb : b ≠ [])
    (hh : a.headD ' ' = b.headD ' ') : 1 ≤ commonLen a b := by
  cases a with
  | nil => exact absurd rfl ha
  | cons x as =>
      cases b with
      | nil => exact absurd rfl hb
      | cons y bs =>
          simp only [List.headD_cons] at hh
          rw [commonLen, if_pos hh]
          omega

theorem commonLen_lt {a b : List Char} (h : ¬a = b.take a.length) :
    commonLen a b < a.length := by
  rcases Nat.lt_or_ge (commonLen a b) a.length with hlt | hge
  · exact hlt
  · exfalso
    have heq : commonLen a b = a.length := le_antisymm (commonLen_le_left a b) hge
    have := commonLen_take_eq a b
    rw [heq, List.take_length] at this
    exact h this

theorem headD_take {l : List Char} {i : Nat} (h : 1 ≤ i) :
    (l.take i).headD ' ' = l.headD ' ' := by
  cases l with
  | nil => simp
  | cons x xs =>
      cases i with
      | zero => omega
      | succ j => simp [List.take_succ_cons]

/-- The node returned by `splitCommonPrefix` keeps all the structural facts
needed of a static child: well-formed, nonempty segment with the same leading
byte, and no internal `/` (unless it is the `/` segment itself). -/
theorem splitCommonPart_wfs (child : Node) (tok : List Char)
    (hW : WFs child)
    (hne : Node.path child ≠ [])
    (htokne : tok ≠ [])
    (hhead : tok.headD ' ' = (Node.path child).headD ' ')
    (hslash : Node.path child = ['/'] ∨ '/' ∉ Node.path child) :
    WFs (splitCommonPart child tok).1 ∧
    Node.path (splitCommonPart child tok).1 ≠ [] ∧
    (Node.path (splitCommonPart child tok).1).headD ' ' = (Node.path child).headD ' ' ∧
    (Node.path (splitCommonPart child tok).1 = ['/'] ∨
      '/' ∉ Node.path (splitCommonPart child tok).1) := by
  unfold splitCommonPart
  by_cases hpre : Node.path child = tok.take (Node.path child).length
  · rw [if_pos hpre]
    exact ⟨hW, hne, rfl, hslash⟩
  · rw [if_neg hpre]
    simp only
    have hpos : 1 ≤ commonLen (Node.path child) tok :=
      commonLen_pos hne htokne (by rw [hhead])
    have hlt : commonLen (Node.path child) tok < (Node.path child).length :=
      commonLen_lt hpre
    have hslash' : '/' ∉ Node.path child := by
      cases hslash with
      | inl hdiv =>
          rw [hdiv] at hlt hpos
          simp at hlt
          omega
      | inr hout => exact hout
    have htake : (Node.path child).take (commonLen (Node.path child) tok) =
        tok.take (commonLen (Node.path child) tok) := commonLen_take_eq _ _
    refine ⟨?_, ?_, ?_, ?_⟩
    · refine WFs.intro _ ?_ ?_ ?_ ?_ ?_
      · simp
      · intro pr hpr
        simp only [static_mk, List.mem_singleton] at hpr
        subst hpr
        refine ⟨?_, ?_, ?_⟩
        · simp only
          rw [path_setPath]
          intro hcon
          have := congrArg List.length hcon
          simp at this
          omega
        · simp only
          rw [path_setPath]
        · simp only
          rw [path_setPath]
          right
          intro hmem
          exact hslash' (List.drop_subset _ _ hmem)
      · intro pr hpr
        simp only [static_mk, List.mem_singleton] at hpr
        subst hpr
        exact wfs_congr (static_setPath _ _) (wildcard_setPath _ _) (catchAll_setPath _ _) hW
      · intro w hw
        simp at hw
      · intro c hc
        simp at hc
    · simp only [path_mk]
      rw [← htake]
      intro hcon
      have := congrArg List.length hcon
      rw [List.length_take] at this
      simp only [List.length_nil] at this
      omega
    · simp only [path_mk]
      rw [← htake]
      exact headD_take hpos
    · simp only [path_mk]
      rw [← htake]
      right
      intro hmem
      exact hslash' (List.take_subset _ _ hmem)

theorem set_swap_perm {α : Type} : ∀ (l : List α) (j : Nat) (a b : α),
    l[j]? = some a → l[j + 1]? = some b →
    List.Perm ((l.set j b).set (j + 1) a) l
  | [], j, a, b, ha, _ => by simp at ha
  | x :: t, 0, a, b, ha, hb => by
      simp only [List.getElem?_cons_zero, Option.some.injEq] at ha
      subst ha
      cases t with
      | nil => simp at hb
      | cons y t' =>
          simp only [List.getElem?_cons_succ, List.getElem?_cons_zero,
            Option.some.injEq] at hb
          subst hb
          simp only [List.set_cons_zero, List.set_cons_succ]
          exact List.Perm.swap _ _ t'
  | x :: t, j + 1, a, b, ha, hb => by
      simp only [List.getElem?_cons_succ] at ha hb
      simp only [List.set_cons_succ]
      exact List.Perm.cons x (set_swap_perm t j a b ha hb)

theorem sortStaticAt_perm : ∀ (i : Nat) (l : List (Char × Node)),
    List.Perm (sortStaticAt l i) l
  | 0, l => List.Perm.refl l
  | j + 1, l => by
      rw [sortStaticAt]
      cases ha : l[j]? with
      | none => exact List.Perm.refl l
      | some a =>
          cases hb : l[j + 1]? with
          | none => exact List.Perm.refl l
          | some b =>
              simp only
              split
              · exact List.Perm.trans (sortStaticAt_perm j ((l.set j b).set (j + 1) a))
                  (set_swap_perm l j a b ha hb)
              · exact List.Perm.refl l

theorem set_getElem?_self {α : Type} : ∀ (l : List α) (i : Nat) (a : α),
    l[i]? = some a → l.set i a = l
  | [], _, _, h => by simp at h
  | x :: t, 0, a, h => by
      simp only [List.getElem?_cons_zero, Option.some.injEq] at h
      subst h
      rfl
  | x :: t, i + 1, a, h => by
      simp only [List.getElem?_cons_succ] at h
      simp [List.set_cons_succ, set_getElem?_self t i a h]

theorem headD_drop1 (l : List Char) : (l.drop 1).headD ' ' = l[1]?.getD ' ' := by
  cases l with
  | nil => rfl
  | cons a t =>
      cases t with
      | nil => rfl
      | cons b t' => simp

theorem headD_of_ne {l : List Char} (h : l ≠ []) : l[0]? = some (l.headD ' ') := by
  cases l with
  | nil => exact absurd rfl h
  | cons a t => simp

theorem tokenEnd_pos (path : List Char) (hp : path ≠ []) : 1 ≤ tokenEndOf path := by
  rw [tokenEndOf]
  split
  · omega
  · rename_i hslash
    cases hfi : path.findIdx? (fun x => x = '/') with
    | none =>
        cases path with
        | nil => exact absurd rfl hp
        | cons a t => simp
    | some k =>
        obtain ⟨hk, hp0, -⟩ := List.findIdx?_eq_some_iff_getElem.mp hfi
        rcases Nat.eq_zero_or_pos k with hk0 | hk1
        · exfalso
          subst hk0
          apply hslash
          cases path with
          | nil => exact absurd rfl hp
          | cons a t =>
              simp only [List.getElem_cons_zero, decide_eq_true_eq] at hp0
              simpa using hp0
        · exact hk1

theorem tokenEnd_le (path : List Char) (hp : path ≠ []) :
    tokenEndOf path ≤ path.length := by
  rw [tokenEndOf]
  split
  · cases path with
    | nil => exact absurd rfl hp
    | cons a t => simp
  · cases hfi : path.findIdx? (fun x => x = '/') with
    | none => exact le_refl _
    | some k => exact le_of_lt (findIdx?_lt_length path _ k hfi)

theorem thisToken_ne (path : List Char) (hp : path ≠ []) :
    path.take (tokenEndOf path) ≠ [] := by
  have h1 := tokenEnd_pos path hp
  intro hcon
  have := congrArg List.length hcon
  rw [List.length_take] at this
  simp only [List.length_nil] at this
  cases path with
  | nil => exact absurd rfl hp
  | cons a t =>
      simp at this
      omega

theorem thisToken_headD (path : List Char) (hp : path ≠ []) :
    (path.take (tokenEndOf path)).headD ' ' = path.headD ' ' :=
  headD_take (tokenEnd_pos path hp)

theorem thisToken_slash_eq (path : List Char) (hp : path ≠ [])
    (h : path.headD ' ' = '/') : path.take (tokenEndOf path) = ['/'] := by
  have hT : tokenEndOf path = 1 := by
    rw [tokenEndOf, if_pos h]
  rw [hT]
  cases path with
  | nil => exact absurd rfl hp
  | cons a t =>
      simp only [List.headD_cons] at h
      subst h
      simp

theorem thisToken_slash_not (path : List Char) (h : path.headD ' ' ≠ '/') :
    '/' ∉ path.take (tokenEndOf path) := by
  rw [tokenEndOf, if_neg h]
  cases hfi : path.findIdx? (fun x => x = '/') with
  | none =>
      intro hmem
      exact not_mem_of_findIdx_none path hfi (List.take_subset _ _ hmem)
  | some k => exact not_mem_take_findIdx path k hfi

/-- Unpacking the escape test. -/
theorem escapedTok_true {tt : List Char} {inSt : Bool}
    (h : escapedTok tt inSt = true) :
    2 ≤ tt.length ∧ inSt = false ∧ tt.headD ' ' = '\\' := by
  rw [escapedTok] at h
  simp only [Bool.and_eq_true, decide_eq_true_eq, Bool.not_eq_true', beq_iff_eq] at h
  exact ⟨h.1.1.1, h.1.1.2, h.1.2⟩

/-- Token facts in the escaped case: the backslash-stripped token is
nonempty, starts with the recorded byte, and contains no slash. -/
theorem tok_facts_esc (path : List Char) (inSt : Bool)
    (h : escapedTok (path.take (tokenEndOf path)) inSt = true) :
    (path.take (tokenEndOf path)).drop 1 ≠ [] ∧
    ((path.take (tokenEndOf path)).drop 1).headD ' ' =
      (path.take (tokenEndOf path))[1]?.getD ' ' ∧
    '/' ∉ (path.take (tokenEndOf path)).drop 1 := by
  obtain ⟨hlen, -, hbs⟩ := escapedTok_true h
  have hpne : path ≠ [] := by
    intro hcon
    subst hcon
    simp [tokenEndOf] at hlen
  refine ⟨?_, headD_drop1 _, ?_⟩
  · intro hcon
    have := congrArg List.length hcon
    rw [List.length_drop] at this
    simp only [List.length_nil] at this
    omega
  · intro hmem
    have hh : path.headD ' ' ≠ '/' := by
      rw [← thisToken_headD path hpne, hbs]
      decide
    exact thisToken_slash_not path hh (List.drop_subset _ _ hmem)

/-- The workhorse for the static arm of `addPath`: whatever token and
recorded byte the escape analysis produced, descending into the matched (and
possibly split) slot or appending a fresh child preserves well-formedness. -/
theorem addPath_static_wfs (fuel : Nat)
    (IH : ∀ (n : Node) (path : List Char) (wcds : Option (List (List Char)))
        (inSt : Bool) (f : Node → Except String Node) (t : Node),
        WFs n → PreservesShape f → addPath fuel n path wcds inSt f = .ok t →
        WFs t ∧ Node.path t = Node.path n)
    (n : Node) (wcds : Option (List (List Char))) (inSt2 : Bool)
    (f : Node → Except String Node) (t : Node) (c2 : Char) (tok : List Char)
    (p1 : Nat → List Char) (p2 : List Char)
    (hW : WFs n) (hf : PreservesShape f)
    (htokne : tok ≠ []) (htokhead : tok.headD ' ' = c2)
    (htokslash : tok = ['/'] ∨ '/' ∉ tok)
    (h : (match (Node.static n).findIdx? (fun p => p.1 == c2) with
          | some i => do
              let res ← addPath fuel
                (bumpPriority
                  (splitCommonPart ((Node.static n)[i]?.getD (' ', emptyRoot)).2 tok).1)
                (p1 i) wcds inSt2 f
              return setStatic n (sortStaticAt ((Node.static n).set i (c2, res)) i)
          | none => do
              let res ← addPath fuel (mkNode tok) p2 wcds inSt2 f
              return setStatic n ((Node.static n) ++ [(c2, res)])) = .ok t) :
    WFs t ∧ Node.path t = Node.path n := by
  cases hidx : (Node.static n).findIdx? (fun p => p.1 == c2) with
  | some i =>
      rw [hidx] at h
      simp only at h
      obtain ⟨hi, hbeq, -⟩ := List.findIdx?_eq_some_iff_getElem.mp hidx
      have heq : ((Node.static n)[i]).1 = c2 := by
        simpa using hbeq
      have hget2 : (Node.static n)[i]? = some ((Node.static n)[i]) :=
        List.getElem?_eq_getElem hi
      rw [hget2] at h
      simp only [Option.getD_some] at h
      have hmem : (Node.static n)[i] ∈ Node.static n := List.getElem_mem hi
      obtain ⟨hcne, hchead, hcslash⟩ := wfs_facts hW _ hmem
      have hWchild := wfs_children hW _ hmem
      have hheads : tok.headD ' ' = (Node.path ((Node.static n)[i]).2).headD ' ' := by
        rw [htokhead, hchead, heq]
      obtain ⟨hWsp, hspne, hsphead, hspslash⟩ :=
        splitCommonPart_wfs ((Node.static n)[i]).2 tok hWchild hcne htokne hheads hcslash
      obtain ⟨res, hres, hret⟩ := bind_ok_inv h
      have hWbump : WFs (bumpPriority
          (splitCommonPart ((Node.static n)[i]).2 tok).1) :=
        wfs_congr (static_bumpPriority _) (wildcard_bumpPriority _)
          (catchAll_bumpPriority _) hWsp
      obtain ⟨hWres, hpres⟩ := IH _ _ _ _ f res hWbump hf hres
      rw [path_bumpPriority] at hpres
      have ht : t = setStatic n (sortStaticAt ((Node.static n).set i (c2, res)) i) := by
        have := hret
        simp only [pure, Except.pure] at this
        exact (Except.ok.inj this).symm
      subst ht
      have hperm := sortStaticAt_perm i ((Node.static n).set i (c2, res))
      constructor
      · refine WFs.intro _ ?_ ?_ ?_ ?_ ?_
        · rw [static_setStatic]
          have h1 : ((Node.static n).set i (c2, res)).map Prod.fst =
              ((Node.static n).map Prod.fst).set i c2 := by
            rw [List.map_set]
          have h2 : ((Node.static n).map Prod.fst)[i]? = some c2 := by
            rw [List.getElem?_map, hget2]
            simp [heq]
          have h3 : ((Node.static n).map Prod.fst).set i c2 =
              (Node.static n).map Prod.fst := set_getElem?_self _ _ _ h2
          have hnodup := wfs_nodup hW
          rw [← h3, ← h1] at hnodup
          exact ((hperm.map Prod.fst).nodup_iff).mpr hnodup
        · rw [static_setStatic]
          intro pr' hpr'
          rcases List.mem_or_eq_of_mem_set (hperm.mem_iff.mp hpr') with hold | hnew
          · exact wfs_facts hW pr' hold
          · subst hnew
            refine ⟨?_, ?_, ?_⟩
            · simp only
              rw [hpres]
              exact hspne
            · simp only
              rw [hpres, hsphead, hchead, heq]
            · simp only
              rw [hpres]
              rcases hspslash with hl | hr
              · exact Or.inl hl
              · exact Or.inr hr
        · rw [static_setStatic]
          intro pr' hpr'
          rcases List.mem_or_eq_of_mem_set (hperm.mem_iff.mp hpr') with hold | hnew
          · exact wfs_children hW pr' hold
          · subst hnew
            exact hWres
        · rw [wildcard_setStatic]
          exact wfs_wc hW
        · rw [catchAll_setStatic]
          exact wfs_ca hW
      · rw [path_setStatic]
  | none =>
      rw [hidx] at h
      simp only at h
      have hnotin : ∀ pr ∈ Node.static n, pr.1 ≠ c2 := by
        intro pr hpr
        have := List.findIdx?_eq_none_iff.mp hidx pr hpr
        simpa using this
      obtain ⟨res, hres, hret⟩ := bind_ok_inv h
      obtain ⟨hWres, hpres⟩ := IH _ _ _ _ f res (wfs_mkNode tok) hf hres
      rw [path_mkNode] at hpres
      have ht : t = setStatic n ((Node.static n) ++ [(c2, res)]) := by
        have := hret
        simp only [pure, Except.pure] at this
        exact (Except.ok.inj this).symm
      subst ht
      constructor
      · refine WFs.intro _ ?_ ?_ ?_ ?_ ?_
        · rw [static_setStatic, List.map_append]
          rw [List.nodup_append]
          refine ⟨wfs_nodup hW, by simp, ?_⟩
          intro a ha hb
          simp only [List.map_cons, List.map_nil, List.mem_singleton] at hb
          subst hb
          obtain ⟨pr, hpr, hpr2⟩ := List.mem_map.mp ha
          exact hnotin pr hpr hpr2
        · rw [static_setStatic]
          intro pr' hpr'
          rcases List.mem_append.mp hpr' with hold | hnew
          · exact wfs_facts hW pr' hold
          · rw [List.mem_singleton] at hnew
            subst hnew
            refine ⟨?_, ?_, ?_⟩
            · simp only
              rw [hpres]
              exact htokne
            · simp only
              rw [hpres, htokhead]
            · simp only
              rw [hpres]
              exact htokslash
        · rw [static_setStatic]
          intro pr' hpr'
          rcases List.mem_append.mp hpr' with hold | hnew
          · exact wfs_children hW pr' hold
          · rw [List.mem_singleton] at hnew
            subst hnew
            exact hWres
        · rw [wildcard_setStatic]
          exact wfs_wc hW
        · rw [catchAll_setStatic]
          exact wfs_ca hW
      · rw [path_setStatic]

/-- Insertion preserves structural well-formedness, and never changes the
segment of the node it was called on. -/
theorem addPath_wfs : ∀ (fuel : Nat) (n : Node) (path : List Char)
    (wcds : Option (List (List Char))) (inSt : Bool)
    (f : Node → Except String Node) (t : Node),
    WFs n → PreservesShape f →
    addPath fuel n path wcds inSt f = .ok t →
    WFs t ∧ Node.path t = Node.path n := by
  intro fuel
  induction fuel with
  | zero =>
      intro n path wcds inSt f t _ _ h
      rw [addPath.eq_def] at h
      simp at h
  | succ fuel IH =>
      intro n path wcds inSt f t hW hf h
      rw [addPath.eq_def] at h
      simp only at h
      by_cases hp : path = []
      · rw [if_pos hp] at h
        cases wcds with
        | none =>
            obtain ⟨hs, hw2, hc2, hp2⟩ := hf n t h
            exact ⟨wfs_congr hs hw2 hc2 hW, hp2⟩
        | some ws =>
            simp only at h
            cases hold : Node.leafWildcardNames n with
            | none =>
                rw [hold] at h
                simp only at h
                obtain ⟨hs, hw2, hc2, hp2⟩ := hf _ t h
                rw [static_setLeafNames] at hs
                rw [wildcard_setLeafNames] at hw2
                rw [catchAll_setLeafNames] at hc2
                rw [path_setLeafNames] at hp2
                exact ⟨wfs_congr hs hw2 hc2 hW, hp2⟩
            | some old =>
                rw [hold] at h
                simp only at h
                split at h
                · exact absurd h (by simp)
                · split at h
                  · exact absurd h (by simp)
                  · obtain ⟨hs, hw2, hc2, hp2⟩ := hf n t h
                    exact ⟨wfs_congr hs hw2 hc2 hW, hp2⟩
      · rw [if_neg hp] at h
        by_cases hstar : (path.headD ' ' = '*' ∧ inSt = false)
        · rw [if_pos hstar] at h
          split at h
          · exact absurd h (by simp)
          · split at h
            · exact absurd h (by simp)
            · obtain ⟨res, hres, hret⟩ := bind_ok_inv h
              obtain ⟨hs, hw2, hc2, hp2⟩ := hf _ res hres
              have ht : t = setCatchAll n (some res) := by
                simp only [pure, Except.pure] at hret
                exact (Except.ok.inj hret).symm
              subst ht
              constructor
              · refine WFs.intro _ ?_ ?_ ?_ ?_ ?_
                · rw [static_setCatchAll]
                  exact wfs_nodup hW
                · rw [static_setCatchAll]
                  exact wfs_facts hW
                · rw [static_setCatchAll]
                  exact wfs_children hW
                · rw [wildcard_setCatchAll]
                  exact wfs_wc hW
                · rw [catchAll_setCatchAll]
                  intro cnode hcq
                  have hcq2 : res = cnode := Option.some.inj hcq
                  subst hcq2
                  have hcacWF : WFs (catchAllOrNew n ((path.take (tokenEndOf path)).drop 1)) := by
                    rw [catchAllOrNew]
                    cases hcac : Node.catchAllChild n with
                    | some ca => exact wfs_ca hW ca hcac
                    | none => exact wfs_leafish (by simp) (by simp) (by simp)
                  refine wfs_congr ?_ ?_ ?_ hcacWF
                  · rw [hs, static_setLeafNames]
                  · rw [hw2, wildcard_setLeafNames]
                  · rw [hc2, catchAll_setLeafNames]
              · rw [path_setCatchAll]
        · rw [if_neg hstar] at h
          by_cases hcolon : (path.headD ' ' = ':' ∧ inSt = false)
          · rw [if_pos hcolon] at h
            obtain ⟨res, hres, hret⟩ := bind_ok_inv h
            have ht : t = setWildcard n (some res) := by
              simp only [pure, Except.pure] at hret
              exact (Except.ok.inj hret).symm
            subst ht
            have hwcWF : WFs ((Node.wildcardChild n).getD (mkNode "wildcard".toList)) := by
              cases hwc : Node.wildcardChild n with
              | none => simpa using wfs_mkNode "wildcard".toList
              | some w => simpa using wfs_wc hW w hwc
            obtain ⟨hWres, -⟩ := IH _ _ _ _ f res hwcWF hf hres
            constructor
            · refine WFs.intro _ ?_ ?_ ?_ ?_ ?_
              · rw [static_setWildcard]
                exact wfs_nodup hW
              · rw [static_setWildcard]
                exact wfs_facts hW
              · rw [static_setWildcard]
                exact wfs_children hW
              · rw [wildcard_setWildcard]
                intro w hwq
                have hwq2 : res = w := Option.some.inj hwq
                subst hwq2
                exact hWres
              · rw [catchAll_setWildcard]
                exact wfs_ca hW
            · rw [path_setWildcard]
          · rw [if_neg hcolon] at h
            refine addPath_static_wfs fuel IH n wcds _ f t _ _ _ _ hW hf ?_ ?_ ?_ h
            · by_cases hesc : escapedTok (path.take (tokenEndOf path)) inSt = true
              · rw [if_pos hesc]
                exact (tok_facts_esc path inSt hesc).1
              · rw [if_neg hesc]
                exact thisToken_ne path hp
            · by_cases hesc : escapedTok (path.take (tokenEndOf path)) inSt = true
              · rw [if_pos hesc, if_pos hesc]
                exact (tok_facts_esc path inSt hesc).2.1
              · rw [if_neg hesc, if_neg hesc]
                exact thisToken_headD path hp
            · by_cases hesc : escapedTok (path.take (tokenEndOf path)) inSt = true
              · rw [if_pos hesc]
                exact Or.inr (tok_facts_esc path inSt hesc).2.2
              · rw [if_neg hesc]
                by_cases hsl : path.headD ' ' = '/'
                · exact Or.inl (thisToken_slash_eq path hp hsl)
                · exact Or.inr (thisToken_slash_not path hsl)

/-- Composing two shape-preserving updates preserves the shape. -/
theorem shape_trans {x y z : Node}
    (h1 : Node.static y = Node.static x ∧ Node.wildcardChild y = Node.wildcardChild x ∧
      Node.catchAllChild y = Node.catchAllChild x ∧ Node.path y = Node.path x)
    (h2 : Node.static z = Node.static y ∧ Node.wildcardChild z = Node.wildcardChild y ∧
      Node.catchAllChild z = Node.catchAllChild y ∧ Node.path z = Node.path y) :
    Node.static z = Node.static x ∧ Node.wildcardChild z = Node.wildcardChild x ∧
      Node.catchAllChild z = Node.catchAllChild x ∧ Node.path z = Node.path x :=
  ⟨h2.1.trans h1.1, h2.2.1.trans h1.2.1, h2.2.2.1.trans h1.2.2.1, h2.2.2.2.trans h1.2.2.2⟩

/-- A successful `setHandler` touches only the handler table. -/
theorem setHandler_shape {n : Node} {v : String} {hid : Nat} {b : Bool} {n' : Node}
    (h : setHandler n v hid b = .ok n') :
    Node.static n' = Node.static n ∧ Node.wildcardChild n' = Node.wildcardChild n ∧
      Node.catchAllChild n' = Node.catchAllChild n ∧ Node.path n' = Node.path n := by
  unfold setHandler at h
  dsimp only at h
  split at h
  · exact absurd h (by simp)
  · have h2 := Except.ok.inj h
    subst h2
    simp

/-- The leaf mutator installed by `Group.Handle` (route stamp, addSlash flag,
handler writes) preserves the shape of the leaf. -/
theorem handleAdd_f_shape (method : String) (fullPath : List Char) (hid : Nat)
    (addSlash headCanUseGet : Bool) :
    PreservesShape (fun leaf => do
      let leaf ←
        if Node.route leaf = [] then pure (setRoute leaf fullPath)
        else if Node.route leaf ≠ fullPath then
          (.error "node route differs from added route" : Except String Node)
        else pure leaf
      let leaf := if addSlash then setAddSlash leaf true else leaf
      let leaf ← setHandler leaf method hid false
      if headCanUseGet ∧ method = "GET" ∧ (nodeHandlerFor leaf "HEAD").isNone then
        setHandler leaf "HEAD" hid true
      else
        pure leaf) := by
  intro l l' hf
  dsimp only at hf
  have tailShape : ∀ (a : Node),
      (do
        let leaf ← setHandler (if addSlash then setAddSlash a true else a) method hid false
        if headCanUseGet ∧ method = "GET" ∧ (nodeHandlerFor leaf "HEAD").isNone then
          setHandler leaf "HEAD" hid true
        else
          pure leaf) = Except.ok l' →
      Node.static l' = Node.static a ∧
        Node.wildcardChild l' = Node.wildcardChild a ∧
        Node.catchAllChild l' = Node.catchAllChild a ∧ Node.path l' = Node.path a := by
    intro a ht
    obtain ⟨b, hb, hc⟩ := bind_ok_inv ht
    have hmid : Node.static (if addSlash then setAddSlash a true else a) = Node.static a ∧
        Node.wildcardChild (if addSlash then setAddSlash a true else a) =
          Node.wildcardChild a ∧
        Node.catchAllChild (if addSlash then setAddSlash a true else a) =
          Node.catchAllChild a ∧
        Node.path (if addSlash then setAddSlash a true else a) = Node.path a := by
      split
      · simp
      · exact ⟨rfl, rfl, rfl, rfl⟩
    have hbshape := setHandler_shape hb
    have hcshape : Node.static l' = Node.static b ∧
        Node.wildcardChild l' = Node.wildcardChild b ∧
        Node.catchAllChild l' = Node.catchAllChild b ∧ Node.path l' = Node.path b := by
      split at hc
      · exact setHandler_shape hc
      · simp only [pure, Except.pure] at hc
        have h2 := Except.ok.inj hc
        subst h2
        exact ⟨rfl, rfl, rfl, rfl⟩
    exact shape_trans hmid (shape_trans hbshape hcshape)
  split at hf
  · obtain ⟨y, hy, hrest⟩ := bind_ok_inv hf
    simp only [pure, Except.pure] at hy
    have h2 := Except.ok.inj hy
    subst h2
    have hs := tailShape _ hrest
    simpa using hs
  · split at hf
    · obtain ⟨y, hy, -⟩ := bind_ok_inv hf
      exact absurd hy (by simp)
    · obtain ⟨y, hy, hrest⟩ := bind_ok_inv hf
      simp only [pure, Except.pure] at hy
      have h2 := Except.ok.inj hy
      subst h2
      exact tailShape _ hrest

/-- A successful `Group.Handle` call on a well-formed tree yields a
well-formed tree. -/
theorem handleAdd_wfs (root : Node) (method : String) (pattern : List Char)
    (hid : Nat) (hg rt : Bool) (t : Node) (hW : WFs root)
    (h : handleAdd root method pattern hid hg rt = .ok t) : WFs t := by
  unfold handleAdd at h
  split at h
  · exact absurd h (by simp)
  · split at h
    · exact absurd h (by simp)
    · dsimp only at h
      exact (addPath_wfs _ _ _ _ _ _ _ hW (handleAdd_f_shape method _ hid _ hg) h).1

/-- Any registration sequence run from the empty root yields a well-formed
tree. -/
theorem runOps_wfs (ops : List Op) (t : Node) (h : runOps ops = .ok t) : WFs t := by
  rw [runOps] at h
  have key : ∀ (l : List Op) (s : Node), WFs s → l.foldlM applyOp s = .ok t → WFs t := by
    intro l
    induction l with
    | nil =>
        intro s hs hfold
        simp only [List.foldlM_nil, pure, Except.pure] at hfold
        have h2 := Except.ok.inj hfold
        subst h2
        exact hs
    | cons op rest ih =>
        intro s hs hfold
        rw [List.foldlM_cons] at hfold
        obtain ⟨m, hm, hrest⟩ := bind_ok_inv hfold
        exact ih m (handleAdd_wfs s op.verb op.pattern op.handler true true m hs hm) hrest
  exact key ops emptyRoot wfs_emptyRoot h

/-- Well-formedness extends to every reachable node of a well-formed tree. -/
theorem wfs_reach {n m : Node} (hW : WFs n) (hR : Reach n m) : WFs m := by
  induction hR with
  | refl n => exact hW
  | staticStep n m pr hmem _ ih => exact ih (wfs_children hW pr hmem)
  | wcStep n m w hw _ ih => exact ih (wfs_wc hW w hw)
  | caStep n m c hc _ ih => exact ih (wfs_ca hW c hc)

/-- C8: starting from the empty root, after every prefix of a registration
sequence every node of the resulting tree carries pairwise-distinct leading
bytes on its static children; prefix splitting preserves the property, and
the split installs the original child — with only its segment shortened —
as the sole static child of the intermediary, whose segment concatenated
with the shortened one spells the original segment (so every previously
inserted subtree stays reachable). -/
theorem c8_static_indices_distinct :
    (∀ (ops : List Op) (k : Nat) (t : Node),
        runOps (ops.take k) = .ok t →
        ∀ m : Node, Reach t m → ((Node.static m).map Prod.fst).Nodup) ∧
    (∀ (child : Node) (tok : List Char),
        WFs child → Node.path child ≠ [] → tok ≠ [] →
        tok.headD ' ' = (Node.path child).headD ' ' →
        (Node.path child = ['/'] ∨ '/' ∉ Node.path child) →
        ∀ m : Node, Reach (splitCommonPart child tok).1 m →
          ((Node.static m).map Prod.fst).Nodup) ∧
    (∀ (child : Node) (tok : List Char),
        Node.path child ≠ tok.take (Node.path child).length →
        Node.static (splitCommonPart child tok).1 =
          [(((Node.path child).drop (commonLen (Node.path child) tok)).headD ' ',
            setPath child ((Node.path child).drop (commonLen (Node.path child) tok)))] ∧
        Node.path (splitCommonPart child tok).1 ++
          (Node.path child).drop (commonLen (Node.path child) tok) =
          Node.path child) := by
  refine ⟨?_, ?_, ?_⟩
  · intro ops k t h m hR
    exact wfs_nodup (wfs_reach (runOps_wfs _ t h) hR)
  · intro child tok hW hne htne hh hs m hR
    exact wfs_nodup (wfs_reach (splitCommonPart_wfs child tok hW hne htne hh hs).1 hR)
  · intro child tok hpre
    unfold splitCommonPart
    rw [if_neg hpre]
    simp only [static_mk, path_mk]
    refine ⟨trivial, ?_⟩
    rw [← commonLen_take_eq]
    exact List.take_append_drop _ _

/-- C8 witness: the `/ab` then `/ax` registration splits `ab`; the resulting
tree and the standalone split both satisfy the distinct-leading-byte and
spelling statements at concrete inputs. -/
theorem c8_static_indices_distinct_witness :
    (runOps ([⟨"GET", "/ab".toList, 1⟩, ⟨"GET", "/ax".toList, 2⟩].take 2) = .ok treeC8 ∧
      ((Node.static treeC8).map Prod.fst).Nodup) ∧
    ((Node.static (splitCommonPart (mkNode "ab".toList) "ax".toList).1).map
      Prod.fst).Nodup ∧
    Node.path (splitCommonPart (mkNode "ab".toList) "ax".toList).1 ++
      (Node.path (mkNode "ab".toList)).drop
        (commonLen (Node.path (mkNode "ab".toList)) "ax".toList) =
      Node.path (mkNode "ab".toList) := by
  refine ⟨⟨rfl, ?_⟩, ?_, ?_⟩
  · exact c8_static_indices_distinct.1
      [⟨"GET", "/ab".toList, 1⟩, ⟨"GET", "/ax".toList, 2⟩] 2 treeC8 rfl treeC8
      (Reach.refl _)
  · exact c8_static_indices_distinct.2.1 (mkNode "ab".toList) "ax".toList
      (wfs_mkNode _) (by decide) (by decide) (by decide) (Or.inr (by decide)) _
      (Reach.refl _)
  · exact (c8_static_indices_distinct.2.2 (mkNode "ab".toList) "ax".toList
      (by decide)).2

/-! ## The static spine of a literal route -/

theorem find?_setEntry_self (es : List (String × Nat)) (v : String) (hid : Nat) :
    (setEntry es v hid).find? (fun e => e.1 == v) = some (v, hid) := by
  induction es with
  | nil => simp [setEntry]
  | cons e es ih =>
      rw [setEntry]
      split
      · simp
      · rename_i hne
        rw [List.find?_cons_of_neg, ih]
        simp [hne]

theorem hmGet_hmSet_self (m : HandlerMap) (v : String) (hid : Nat) :
    hmGet (hmSet m v hid) v = some hid := by
  rw [hmGet, hmSet]
  simp only
  rw [find?_setEntry_self]
  rfl

theorem find?_setEntry_other (es : List (String × Nat)) {v v' : String}
    (h : v' ≠ v) (hid : Nat) :
    (setEntry es v' hid).find? (fun e => e.1 == v) =
      es.find? (fun e => e.1 == v) := by
  induction es with
  | nil => simp [setEntry, h]
  | cons e es ih =>
      rw [setEntry]
      split
      · rename_i he
        rw [List.find?_cons_of_neg, List.find?_cons_of_neg] <;> simp [he, h]
      · by_cases hev : e.1 = v
        · rw [List.find?_cons_of_pos, List.find?_cons_of_pos] <;> simp [hev]
        · rw [List.find?_cons_of_neg, List.find?_cons_of_neg, ih] <;> simp [hev]

theorem hmGet_hmSet_other (m : HandlerMap) {v v' : String} (h : v' ≠ v) (hid : Nat) :
    hmGet (hmSet m v' hid) v = hmGet m v := by
  rw [hmGet, hmSet]
  simp only
  rw [find?_setEntry_other _ h]
  rfl

/-- With pairwise-distinct keys, `find?` by key returns the (unique) stored
pair with that key. -/
theorem find?_key_unique {l : List (Char × Node)} (hnd : (l.map Prod.fst).Nodup)
    {pr : Char × Node} (hm : pr ∈ l) {c : Char} (hc : pr.1 = c) :
    findStaticPair l c = some pr := by
  induction l with
  | nil => cases hm
  | cons x xs ih =>
      rw [findStaticPair]
      by_cases hx : x.1 = c
      · rw [List.find?_cons_of_pos]
        · rcases List.mem_cons.mp hm with heq | htail
          · rw [heq]
          · exfalso
            rw [List.map_cons, List.nodup_cons] at hnd
            exact hnd.1 (hx ▸ hc ▸ List.mem_map_of_mem Prod.fst htail)
        · simp [hx]
      · rcases List.mem_cons.mp hm with heq | htail
        · exact absurd (heq ▸ hc) hx
        · rw [List.find?_cons_of_neg]
          · rw [List.map_cons, List.nodup_cons] at hnd
            exact ih hnd.2 htail
          · simp [hx]

theorem staticFind_congr {x x' : Node} (hs : Node.static x' = Node.static x)
    (fu : Nat) {q : List Char} (hq : q ≠ []) :
    staticFind fu x' q = staticFind fu x q := by
  cases fu with
  | zero => rfl
  | succ fu =>
      simp only [staticFind]
      rw [if_neg hq, if_neg hq, hs]

theorem staticFind_mono : ∀ (fu fu' : Nat) (n : Node) (q : List Char) (leaf : Node),
    fu ≤ fu' → staticFind fu n q = some leaf → staticFind fu' n q = some leaf := by
  intro fu
  induction fu with
  | zero =>
      intro fu' n q leaf _ h
      simp [staticFind] at h
  | succ fu IH =>
      intro fu' n q leaf hle h
      cases fu' with
      | zero => omega
      | succ fu1 =>
          simp only [staticFind] at h ⊢
          by_cases hq : q = []
          · rw [if_pos hq] at h ⊢
            exact h
          · rw [if_neg hq] at h ⊢
            split at h
            · rename_i pr hfind
              split at h
              · rename_i hconds
                rw [if_pos hconds]
                exact IH fu1 pr.2 _ leaf (by omega) h
              · simp at h
            · simp at h

theorem staticFind_fuel : ∀ (fu : Nat) (n : Node) (q : List Char) (leaf : Node),
    WFs n → staticFind fu n q = some leaf → staticFind (q.length + 1) n q = some leaf := by
  intro fu
  induction fu with
  | zero =>
      intro n q leaf _ h
      simp [staticFind] at h
  | succ fu IH =>
      intro n q leaf hW h
      simp only [staticFind] at h
      by_cases hq : q = []
      · rw [if_pos hq] at h
        subst hq
        simp only [staticFind, List.length_nil]
        simpa using h
      · rw [if_neg hq] at h
        split at h
        · rename_i pr hfind
          split at h
          · rename_i hconds
            have hmem := findStaticPair_mem hfind
            have hWc := wfs_children hW pr hmem
            have hlen : 1 ≤ (Node.path pr.2).length := by
              have := (wfs_facts hW pr hmem).1
              cases hp : Node.path pr.2 with
              | nil => exact absurd hp this
              | cons a l => simp [hp]
            have hrec := IH pr.2 _ leaf hWc h
            have hrec2 : staticFind q.length pr.2
                (q.drop (Node.path pr.2).length) = some leaf := by
              refine staticFind_mono _ _ _ _ _ ?_ hrec
              simp only [List.length_drop]
              omega
            simp only [staticFind]
            rw [if_neg hq, hfind]
            simp only
            rw [if_pos hconds]
            exact hrec2
          · simp at h
        · simp at h

/-- When the static spine reaches a leaf holding a handler for `v`, `search`
returns exactly that leaf and handler with no parameters: the static branch
wins outright and neither the wildcard nor the catch-all phase runs. -/
theorem search_of_staticFind : ∀ (fu : Nat) (n leaf : Node) (q : List Char)
    (v : String) (hid : Nat),
    staticFind fu n q = some leaf → nodeHandlerFor leaf v = some hid →
    search fu n v q = (some leaf, some hid, []) := by
  intro fu
  induction fu with
  | zero =>
      intro n leaf q v hid h _
      simp [staticFind] at h
  | succ fu IH =>
      intro n leaf q v hid h hh
      by_cases hq : q = []
      · subst hq
        simp only [staticFind] at h
        rw [if_pos trivial] at h
        have h2 := Option.some.inj h
        subst h2
        rw [search]
        rw [if_pos rfl]
        unfold nodeHandlerFor at hh
        cases hm : Node.handlerMap n with
        | none => rw [hm] at hh; exact absurd hh (by simp)
        | some m =>
            rw [hm] at hh
            simp only at hh
            simp [hm, hh]
      · simp only [staticFind] at h
        rw [if_neg hq] at h
        split at h
        · rename_i pr hfind
          split at h
          · rename_i hconds
            have hrec := IH pr.2 leaf _ v hid h hh
            rw [search]
            rw [if_neg hq]
            dsimp only
            rw [hfind]
            simp only
            rw [if_pos hconds, hrec]
            simp
          · simp at h
        · simp at h

theorem commonLen_le_right : ∀ a b : List Char, commonLen a b ≤ b.length
  | [], _ => by simp [commonLen]
  | _ :: _, [] => by simp [commonLen]
  | a :: as, b :: bs => by
      rw [commonLen]
      split
      · simpa using commonLen_le_right as bs
      · simp

/-- A token whose first byte is not a backslash never opens an escape. -/
theorem escapedTok_false (path : List Char) (inSt : Bool) (hp : path ≠ [])
    (hh : path.headD ' ' ≠ '\\') :
    escapedTok (path.take (tokenEndOf path)) inSt = false := by
  rw [escapedTok]
  have hht : (path.take (tokenEndOf path)).headD ' ' = path.headD ' ' :=
    headD_take (tokenEnd_pos path hp)
  rw [hht]
  have hb : (path.headD ' ' == '\\') = false := by
    simpa using hh
  rw [hb]
  simp

/-- `hmGet` only reads the entry list, never the implicit-HEAD flag. -/
theorem hmGet_mk_entries (m1 : HandlerMap) (b : Bool) (v : String) :
    hmGet ⟨m1.entries, b⟩ v = hmGet m1 v := rfl

/-- A successful `setHandler` for verb `v'` keeps any explicitly stored entry
of another verb `v` (and the explicitness of a stored HEAD entry); for
`v' = v` it can only have succeeded by overwriting an implicit HEAD, which
the explicitness hypothesis rules out. -/
theorem setHandler_entry_preserved {n n' : Node} {v' : String} {hid' : Nat} {b : Bool}
    (h : setHandler n v' hid' b = .ok n') (v : String) (hid : Nat) (m : HandlerMap)
    (hm : Node.handlerMap n = some m) (hget : hmGet m v = some hid)
    (hflag : v = "HEAD" → m.implicitHead = false) :
    ∃ m', Node.handlerMap n' = some m' ∧ hmGet m' v = some hid ∧
      (v = "HEAD" → m'.implicitHead = false) := by
  unfold setHandler at h
  dsimp only at h
  rw [hm] at h
  simp only at h
  split at h
  · exact absurd h (by simp)
  · rename_i hcond
    have h2 := Except.ok.inj h
    subst h2
    by_cases hv : v' = v
    · subst hv
      exfalso
      apply hcond
      refine ⟨by simp [hget], ?_⟩
      by_cases hvh : v' = "HEAD"
      · exact Or.inr (hflag hvh)
      · exact Or.inl hvh
    · refine ⟨_, handlerMap_setHandlerMap _ _, ?_, ?_⟩
      · by_cases hvh : v' = "HEAD"
        · rw [if_pos hvh]
          rw [hmGet_mk_entries, hmGet_hmSet_other m hv]
          exact hget
        · rw [if_neg hvh]
          rw [hmGet_hmSet_other m hv]
          exact hget
      · intro hvH
        have hvh : v' ≠ "HEAD" := fun hc => hv (hc.trans hvH.symm)
        rw [if_neg hvh]
        show (hmSet m v' hid').implicitHead = false
        rw [hmSet]
        exact hflag hvH

/-- A successful `setHandler` stores its own (verb ↦ handler) entry, with the
given implicit-HEAD flag when the verb is HEAD. -/
theorem setHandler_installs {n n' : Node} {v' : String} {hid' : Nat} {b : Bool}
    (h : setHandler n v' hid' b = .ok n') :
    ∃ m', Node.handlerMap n' = some m' ∧ hmGet m' v' = some hid' ∧
      (v' = "HEAD" → m'.implicitHead = b) := by
  unfold setHandler at h
  dsimp only at h
  split at h
  · exact absurd h (by simp)
  · have h2 := Except.ok.inj h
    subst h2
    refine ⟨_, handlerMap_setHandlerMap _ _, ?_, ?_⟩
    · by_cases hvh : v' = "HEAD"
      · rw [if_pos hvh]
        rw [hmGet_mk_entries, hmGet_hmSet_self]
      · rw [if_neg hvh]
        rw [hmGet_hmSet_self]
    · intro hvH
      rw [if_pos hvH]

/-- The leaf mutator of `Group.Handle` preserves every explicitly stored
entry of every verb. -/
theorem handleAdd_f_entry (method : String) (fullPath : List Char) (hid2 : Nat)
    (addSlash headCanUseGet : Bool) (v : String) (hid : Nat) :
    PreservesEntry v hid (fun leaf => do
      let leaf ←
        if Node.route leaf = [] then pure (setRoute leaf fullPath)
        else if Node.route leaf ≠ fullPath then
          (.error "node route differs from added route" : Except String Node)
        else pure leaf
      let leaf := if addSlash then setAddSlash leaf true else leaf
      let leaf ← setHandler leaf method hid2 false
      if headCanUseGet ∧ method = "GET" ∧ (nodeHandlerFor leaf "HEAD").isNone then
        setHandler leaf "HEAD" hid2 true
      else
        pure leaf) := by
  intro l l' m hf hm hget hflag
  dsimp only at hf
  have tailEntry : ∀ (a : Node), Node.handlerMap a = some m →
      (do
        let leaf ← setHandler (if addSlash then setAddSlash a true else a) method hid2 false
        if headCanUseGet ∧ method = "GET" ∧ (nodeHandlerFor leaf "HEAD").isNone then
          setHandler leaf "HEAD" hid2 true
        else
          pure leaf) = Except.ok l' →
      ∃ m', Node.handlerMap l' = some m' ∧ hmGet m' v = some hid ∧
        (v = "HEAD" → m'.implicitHead = false) := by
    intro a hma ht
    obtain ⟨b, hb, hc⟩ := bind_ok_inv ht
    have hma2 : Node.handlerMap (if addSlash then setAddSlash a true else a) = some m := by
      split
      · simp [hma]
      · exact hma
    obtain ⟨m2, hbm, hbget, hbflag⟩ :=
      setHandler_entry_preserved hb v hid m hma2 hget hflag
    split at hc
    · exact setHandler_entry_preserved hc v hid m2 hbm hbget hbflag
    · simp only [pure, Except.pure] at hc
      have h2 := Except.ok.inj hc
      subst h2
      exact ⟨m2, hbm, hbget, hbflag⟩
  split at hf
  · obtain ⟨y, hy, hrest⟩ := bind_ok_inv hf
    simp only [pure, Except.pure] at hy
    have h2 := Except.ok.inj hy
    subst h2
    exact tailEntry _ (by simp [hm]) hrest
  · split at hf
    · obtain ⟨y, hy, -⟩ := bind_ok_inv hf
      exact absurd hy (by simp)
    · obtain ⟨y, hy, hrest⟩ := bind_ok_inv hf
      simp only [pure, Except.pure] at hy
      have h2 := Except.ok.inj hy
      subst h2
      exact tailEntry _ hm hrest

/-- The leaf mutator of `Group.Handle` records its own (verb ↦ handler) entry
on the leaf it is applied to, explicitly in the HEAD case. -/
theorem handleAdd_f_installsEntry (method : String) (fullPath : List Char) (hid2 : Nat)
    (addSlash headCanUseGet : Bool) :
    InstallsEntry method hid2 (fun leaf => do
      let leaf ←
        if Node.route leaf = [] then pure (setRoute leaf fullPath)
        else if Node.route leaf ≠ fullPath then
          (.error "node route differs from added route" : Except String Node)
        else pure leaf
      let leaf := if addSlash then setAddSlash leaf true else leaf
      let leaf ← setHandler leaf method hid2 false
      if headCanUseGet ∧ method = "GET" ∧ (nodeHandlerFor leaf "HEAD").isNone then
        setHandler leaf "HEAD" hid2 true
      else
        pure leaf) := by
  intro l l' hf
  dsimp only at hf
  have tailInstall : ∀ (a : Node),
      (do
        let leaf ← setHandler (if addSlash then setAddSlash a true else a) method hid2 false
        if headCanUseGet ∧ method = "GET" ∧ (nodeHandlerFor leaf "HEAD").isNone then
          setHandler leaf "HEAD" hid2 true
        else
          pure leaf) = Except.ok l' →
      ∃ m', Node.handlerMap l' = some m' ∧ hmGet m' method = some hid2 ∧
        (method = "HEAD" → m'.implicitHead = false) := by
    intro a ht
    obtain ⟨b, hb, hc⟩ := bind_ok_inv ht
    obtain ⟨m2, hbm, hbget, hbflag⟩ := setHandler_installs hb
    split at hc
    · rename_i hguard
      have hne : method ≠ "HEAD" := by
        rw [hguard.2.1]
        decide
      exact setHandler_entry_preserved hc method hid2 m2 hbm hbget
        (fun hc2 => absurd hc2 hne)
    · simp only [pure, Except.pure] at hc
      have h2 := Except.ok.inj hc
      subst h2
      exact ⟨m2, hbm, hbget, hbflag⟩
  split at hf
  · obtain ⟨y, hy, hrest⟩ := bind_ok_inv hf
    simp only [pure, Except.pure] at hy
    have h2 := Except.ok.inj hy
    subst h2
    exact tailInstall _ hrest
  · split at hf
    · obtain ⟨y, hy, -⟩ := bind_ok_inv hf
      exact absurd hy (by simp)
    · obtain ⟨y, hy, hrest⟩ := bind_ok_inv hf
      simp only [pure, Except.pure] at hy
      have h2 := Except.ok.inj hy
      subst h2
      exact tailInstall _ hrest

/-- The first-matching static pair carries the queried byte. -/
theorem findStaticPair_key {l : List (Char × Node)} {c : Char} {pr : Char × Node}
    (h : findStaticPair l c = some pr) : pr.1 = c := by
  unfold findStaticPair at h
  have := List.find?_some h
  simpa using this

/-- `find?` keeps returning the first match after appending. -/
theorem find?_append_first {α : Type} {p : α → Bool} {a : α} {l1 : List α}
    (l2 : List α) (h : l1.find? p = some a) : (l1 ++ l2).find? p = some a := by
  rw [List.find?_append, h]
  rfl

/-- An element survives a `set` at a slot holding a different key. -/
theorem mem_set_of_keys {l : List (Char × Node)} {pr prI : Char × Node} {i : Nat}
    (x : Char × Node) (hm : pr ∈ l) (hI : l[i]? = some prI)
    (hne : pr.1 ≠ prI.1) :
    pr ∈ l.set i x := by
  obtain ⟨j, hj, hjget⟩ := List.getElem_of_mem hm
  have hji : i ≠ j := by
    intro he
    subst he
    rw [List.getElem?_eq_getElem hj] at hI
    have h2 := Option.some.inj hI
    exact hne (by rw [← hjget, h2])
  have hset : (l.set i x)[j]? = some pr := by
    rw [List.getElem?_set_ne hji, List.getElem?_eq_getElem hj, hjget]
  exact List.getElem?_mem hset

/-- Entry resolution only looks at static children and handler tables, so it
transfers across any rebuild that keeps those two fields. -/
theorem entryVia_congr {v : String} {hid : Nat} {x x' : Node}
    (hs : Node.static x' = Node.static x)
    (hm : Node.handlerMap x' = Node.handlerMap x) {r : List Char}
    (h : EntryVia v hid x r) : EntryVia v hid x' r := by
  obtain ⟨fu, leaf, m, hsf, hml, hget, hflag⟩ := h
  by_cases hr : r = []
  · subst hr
    have hleaf : leaf = x := by
      cases fu with
      | zero => simp [staticFind] at hsf
      | succ fu0 =>
          simp [staticFind] at hsf
          exact hsf.symm
    subst hleaf
    refine ⟨1, x', m, by simp [staticFind], ?_, hget, hflag⟩
    rw [hm]
    exact hml
  · exact ⟨fu, leaf, m, by rw [staticFind_congr hs fu hr]; exact hsf, hml, hget, hflag⟩

/-- When the incoming token forces a split of a child whose whole stored
segment spells a prefix of the query, the intermediary spells the common run
of the query and descending through it reaches exactly the nodes the original
child reached (its subtree is reinstalled under the intermediary with only
its segment shortened). -/
theorem splitCommonPart_query (child : Node) (tok q : List Char)
    (hpre : ¬Node.path child = tok.take (Node.path child).length)
    (hpath : Node.path child = q.take (Node.path child).length)
    (hlen : (Node.path child).length ≤ q.length)
    (hpos : 1 ≤ commonLen (Node.path child) tok)
    (hlt : commonLen (Node.path child) tok < (Node.path child).length)
    (v : String) (hid : Nat)
    (hE : EntryVia v hid child (q.drop (Node.path child).length)) :
    Node.path (splitCommonPart child tok).1 = q.take (commonLen (Node.path child) tok) ∧
    (Node.path (splitCommonPart child tok).1).length = commonLen (Node.path child) tok ∧
    EntryVia v hid (splitCommonPart child tok).1
      (q.drop (commonLen (Node.path child) tok)) := by
  have htk := commonLen_take_eq (Node.path child) tok
  have hsp1 : (splitCommonPart child tok).1 =
      Node.mk (tok.take (commonLen (Node.path child) tok)) [] (Node.priority child)
        [(((Node.path child).drop (commonLen (Node.path child) tok)).headD ' ',
          setPath child ((Node.path child).drop (commonLen (Node.path child) tok)))]
        none none false false none none := by
    unfold splitCommonPart
    rw [if_neg hpre]
  generalize hI0 : commonLen (Node.path child) tok = i0 at htk hsp1 hpos hlt ⊢
  have hppath : Node.path (splitCommonPart child tok).1 = tok.take i0 := by
    rw [hsp1, path_mk]
  have htok_q : tok.take i0 = q.take i0 := by
    rw [← htk]
    conv_lhs => rw [hpath]
    rw [List.take_take]
    congr 1
    omega
  refine ⟨by rw [hppath, htok_q], ?_, ?_⟩
  · rw [hppath, htok_q, List.length_take]
    omega
  · obtain ⟨fu3, leaf3, m3, hsf3, hml3, hget3, hflag3⟩ :=
      entryVia_congr (static_setPath child ((Node.path child).drop i0))
        (handlerMap_setPath child ((Node.path child).drop i0)) hE
    have hqd : q.drop i0 ≠ [] := by
      intro hc
      have h2 := congrArg List.length hc
      simp only [List.length_drop, List.length_nil] at h2
      omega
    have hdq : ((Node.path child).drop i0).headD ' ' = (q.drop i0).headD ' ' := by
      conv_lhs => rw [hpath]
      rw [List.drop_take]
      exact headD_take (by omega)
    have hdrop2 : (q.drop i0).drop ((Node.path child).length - i0) =
        q.drop (Node.path child).length := by
      rw [List.drop_drop]
      congr 1
      omega
    have hshpath : (Node.path child).drop i0 =
        (q.drop i0).take ((Node.path child).length - i0) := by
      conv_lhs => rw [hpath]
      rw [List.drop_take]
    refine ⟨fu3 + 1, leaf3, m3, ?_, hml3, hget3, hflag3⟩
    rw [hsp1]
    simp only [staticFind]
    rw [if_neg hqd]
    rw [static_mk, findStaticPair]
    rw [List.find?_cons_of_pos]
    · simp only
      rw [if_pos ?_]
      · rw [path_setPath, List.length_drop, hdrop2]
        exact hsf3
      · constructor
        · rw [path_setPath, List.length_drop, List.length_drop]
          omega
        · rw [path_setPath, List.length_drop]
          exact hshpath
    · simp only
      simpa using hdq

/-- Static-arm frame property of `addPath`: inserting below a static slot
(bumping, splitting and re-sorting included) never loses an entry reachable
through the static spine. -/
theorem addPath_static_frame (v : String) (hid : Nat) (fuel : Nat)
    (IH : ∀ (n : Node) (path : List Char) (wcds : Option (List (List Char)))
        (inSt : Bool) (f : Node → Except String Node) (t : Node),
        WFs n → PreservesShape f → PreservesEntry v hid f →
        addPath fuel n path wcds inSt f = .ok t →
        ∀ q : List Char, EntryVia v hid n q → EntryVia v hid t q)
    (n : Node) (wcds : Option (List (List Char))) (inSt2 : Bool)
    (f : Node → Except String Node) (t : Node) (c2 : Char) (tok : List Char)
    (p1 : Nat → List Char) (p2 : List Char)
    (hW : WFs n) (hWt : WFs t) (hf : PreservesShape f) (hpe : PreservesEntry v hid f)
    (htokne : tok ≠ []) (htokhead : tok.headD ' ' = c2)
    (h : (match (Node.static n).findIdx? (fun p => p.1 == c2) with
          | some i => do
              let res ← addPath fuel
                (bumpPriority
                  (splitCommonPart ((Node.static n)[i]?.getD (' ', emptyRoot)).2 tok).1)
                (p1 i) wcds inSt2 f
              return setStatic n (sortStaticAt ((Node.static n).set i (c2, res)) i)
          | none => do
              let res ← addPath fuel (mkNode tok) p2 wcds inSt2 f
              return setStatic n ((Node.static n) ++ [(c2, res)])) = .ok t)
    (q : List Char) (hE : EntryVia v hid n q) :
    EntryVia v hid t q := by
  cases hidx : (Node.static n).findIdx? (fun p => p.1 == c2) with
  | some i =>
      rw [hidx] at h
      simp only at h
      obtain ⟨hi, hbeq, -⟩ := List.findIdx?_eq_some_iff_getElem.mp hidx
      have heq : ((Node.static n)[i]).1 = c2 := by
        simpa using hbeq
      have hget2 : (Node.static n)[i]? = some ((Node.static n)[i]) :=
        List.getElem?_eq_getElem hi
      rw [hget2] at h
      simp only [Option.getD_some] at h
      have hmem : (Node.static n)[i] ∈ Node.static n := List.getElem_mem hi
      obtain ⟨hcne, hchead, hcslash⟩ := wfs_facts hW _ hmem
      have hWchild := wfs_children hW _ hmem
      have hheads : tok.headD ' ' = (Node.path ((Node.static n)[i]).2).headD ' ' := by
        rw [htokhead, hchead, heq]
      have hWsp := (splitCommonPart_wfs ((Node.static n)[i]).2 tok hWchild hcne htokne
        hheads hcslash).1
      have hWbump : WFs (bumpPriority
          (splitCommonPart ((Node.static n)[i]).2 tok).1) :=
        wfs_congr (static_bumpPriority _) (wildcard_bumpPriority _)
          (catchAll_bumpPriority _) hWsp
      obtain ⟨res, hres, hret⟩ := bind_ok_inv h
      have hpres : Node.path res =
          Node.path (splitCommonPart ((Node.static n)[i]).2 tok).1 := by
        have h2 := (addPath_wfs fuel _ _ _ _ f res hWbump hf hres).2
        rw [path_bumpPriority] at h2
        exact h2
      have ht : t = setStatic n (sortStaticAt ((Node.static n).set i (c2, res)) i) := by
        have h2 := hret
        simp only [pure, Except.pure] at h2
        exact (Except.ok.inj h2).symm
      subst ht
      have hndT : ((sortStaticAt ((Node.static n).set i (c2, res)) i).map Prod.fst).Nodup := by
        have h2 := wfs_nodup hWt
        rw [static_setStatic] at h2
        exact h2
      by_cases hq : q = []
      · subst hq
        obtain ⟨fu, leaf, m, hsf, hml, hget, hflag⟩ := hE
        have hleaf : leaf = n := by
          cases fu with
          | zero => simp [staticFind] at hsf
          | succ fu0 =>
              simp [staticFind] at hsf
              exact hsf.symm
        refine ⟨1, setStatic n (sortStaticAt ((Node.static n).set i (c2, res)) i), m,
          by simp [staticFind], ?_, hget, hflag⟩
        rw [handlerMap_setStatic, ← hleaf]
        exact hml
      · obtain ⟨fu, leaf, m, hsf, hml, hget, hflag⟩ := hE
        cases fu with
        | zero => exact absurd hsf (by simp [staticFind])
        | succ fu0 =>
          simp only [staticFind] at hsf
          rw [if_neg hq] at hsf
          split at hsf
          · rename_i pr hfindq
            split at hsf
            · rename_i hconds
              by_cases hkey : pr.1 = c2
              · have hprI : pr = (Node.static n)[i] := by
                  have h1 := find?_key_unique (wfs_nodup hW) (findStaticPair_mem hfindq) hkey
                  have h2 := find?_key_unique (wfs_nodup hW) hmem heq
                  rw [h1] at h2
                  exact Option.some.inj h2
                have hqc2 : q.headD ' ' = c2 := by
                  rw [← findStaticPair_key hfindq]
                  exact hkey
                rw [hprI] at hconds hsf
                have hmemres : (c2, res) ∈
                    sortStaticAt ((Node.static n).set i (c2, res)) i := by
                  apply (sortStaticAt_perm i _).mem_iff.mpr
                  have hiq : ((Node.static n).set i (c2, res))[i]? = some (c2, res) := by
                    rw [List.getElem?_set_self']
                    rw [hget2]
                    rfl
                  exact List.getElem?_mem hiq
                have hfindT : findStaticPair
                    (sortStaticAt ((Node.static n).set i (c2, res)) i) (q.headD ' ') =
                    some (c2, res) := by
                  apply find?_key_unique hndT hmemres
                  simp only
                  exact hqc2.symm
                by_cases hpre : Node.path ((Node.static n)[i]).2 =
                    tok.take (Node.path ((Node.static n)[i]).2).length
                · have hsp1 : (splitCommonPart ((Node.static n)[i]).2 tok).1 =
                      ((Node.static n)[i]).2 := by
                    unfold splitCommonPart
                    rw [if_pos hpre]
                  have hpathres : Node.path res = Node.path ((Node.static n)[i]).2 := by
                    rw [hpres, hsp1]
                  have hEb : EntryVia v hid
                      (bumpPriority (splitCommonPart ((Node.static n)[i]).2 tok).1)
                      (q.drop (Node.path ((Node.static n)[i]).2).length) := by
                    apply entryVia_congr ?_ ?_
                      (⟨fu0, leaf, m, hsf, hml, hget, hflag⟩ :
                        EntryVia v hid ((Node.static n)[i]).2
                          (q.drop (Node.path ((Node.static n)[i]).2).length))
                    · rw [static_bumpPriority, hsp1]
                    · rw [handlerMap_bumpPriority, hsp1]
                  obtain ⟨fu2, leaf2, m2, hsf2, hml2, hget2b, hflag2⟩ :=
                    IH _ _ _ _ f res hWbump hf hpe hres _ hEb
                  refine ⟨fu2 + 1, leaf2, m2, ?_, hml2, hget2b, hflag2⟩
                  simp only [staticFind]
                  rw [if_neg hq, static_setStatic, hfindT]
                  simp only
                  have hcondsT : (Node.path res).length ≤ q.length ∧
                      Node.path res = q.take (Node.path res).length := by
                    rw [hpathres]
                    exact hconds
                  rw [if_pos hcondsT]
                  rw [hpathres]
                  exact hsf2
                · have hpos : 1 ≤ commonLen (Node.path ((Node.static n)[i]).2) tok :=
                    commonLen_pos hcne htokne hheads.symm
                  have hlt2 : commonLen (Node.path ((Node.static n)[i]).2) tok <
                      (Node.path ((Node.static n)[i]).2).length := commonLen_lt hpre
                  obtain ⟨hsplen_eq, hsplen_len, hEinter⟩ :=
                    splitCommonPart_query ((Node.static n)[i]).2 tok q hpre hconds.2
                      hconds.1 hpos hlt2 v hid ⟨fu0, leaf, m, hsf, hml, hget, hflag⟩
                  have hEb := entryVia_congr (static_bumpPriority _)
                    (handlerMap_bumpPriority _) hEinter
                  obtain ⟨fu2, leaf2, m2, hsf2, hml2, hget2b, hflag2⟩ :=
                    IH _ _ _ _ f res hWbump hf hpe hres _ hEb
                  have hprq : Node.path res =
                      q.take (commonLen (Node.path ((Node.static n)[i]).2) tok) := by
                    rw [hpres]
                    exact hsplen_eq
                  have hprlen : (Node.path res).length =
                      commonLen (Node.path ((Node.static n)[i]).2) tok := by
                    rw [hpres]
                    exact hsplen_len
                  refine ⟨fu2 + 1, leaf2, m2, ?_, hml2, hget2b, hflag2⟩
                  simp only [staticFind]
                  rw [if_neg hq, static_setStatic, hfindT]
                  simp only
                  have hcondsT : (Node.path res).length ≤ q.length ∧
                      Node.path res = q.take (Node.path res).length := by
                    constructor
                    · rw [hprlen]
                      have h3 := commonLen_le_left (Node.path ((Node.static n)[i]).2) tok
                      have h4 := hconds.1
                      omega
                    · rw [hprq, List.length_take]
                      congr 1
                      have h4 := hconds.1
                      omega
                  rw [if_pos hcondsT]
                  rw [hprlen]
                  exact hsf2
              · have hprmem := findStaticPair_mem hfindq
                have hneI : pr.1 ≠ ((Node.static n)[i]).1 := by
                  rw [heq]
                  exact hkey
                have hmemset : pr ∈ (Node.static n).set i (c2, res) :=
                  mem_set_of_keys (c2, res) hprmem hget2 hneI
                have hmemT : pr ∈ sortStaticAt ((Node.static n).set i (c2, res)) i :=
                  (sortStaticAt_perm i _).mem_iff.mpr hmemset
                have hfindT2 := find?_key_unique hndT hmemT (findStaticPair_key hfindq)
                refine ⟨fu0 + 1, leaf, m, ?_, hml, hget, hflag⟩
                simp only [staticFind]
                rw [if_neg hq, static_setStatic, hfindT2]
                simp only
                rw [if_pos hconds]
                exact hsf
            · exact absurd hsf (by simp)
          · exact absurd hsf (by simp)
  | none =>
      rw [hidx] at h
      simp only at h
      obtain ⟨res, hres, hret⟩ := bind_ok_inv h
      have ht : t = setStatic n ((Node.static n) ++ [(c2, res)]) := by
        have h2 := hret
        simp only [pure, Except.pure] at h2
        exact (Except.ok.inj h2).symm
      subst ht
      by_cases hq : q = []
      · subst hq
        obtain ⟨fu, leaf, m, hsf, hml, hget, hflag⟩ := hE
        have hleaf : leaf = n := by
          cases fu with
          | zero => simp [staticFind] at hsf
          | succ fu0 =>
              simp [staticFind] at hsf
              exact hsf.symm
        refine ⟨1, setStatic n ((Node.static n) ++ [(c2, res)]), m,
          by simp [staticFind], ?_, hget, hflag⟩
        rw [handlerMap_setStatic, ← hleaf]
        exact hml
      · obtain ⟨fu, leaf, m, hsf, hml, hget, hflag⟩ := hE
        cases fu with
        | zero => exact absurd hsf (by simp [staticFind])
        | succ fu0 =>
          simp only [staticFind] at hsf
          rw [if_neg hq] at hsf
          split at hsf
          · rename_i pr hfindq
            split at hsf
            · rename_i hconds
              have happ : findStaticPair ((Node.static n) ++ [(c2, res)]) (q.headD ' ') =
                  some pr :=
                find?_append_first [(c2, res)]
                  (show (Node.static n).find? (fun p => p.1 == q.headD ' ') = some pr
                    from hfindq)
              refine ⟨fu0 + 1, leaf, m, ?_, hml, hget, hflag⟩
              simp only [staticFind]
              rw [if_neg hq, static_setStatic, happ]
              simp only
              rw [if_pos hconds]
              exact hsf
            · exact absurd hsf (by simp)
          · exact absurd hsf (by simp)

/-- Frame property of insertion: a route already resolvable through the
static spine (with an explicitly stored handler) keeps resolving to the same
handler after any successful later insertion, whatever that insertion adds. -/
theorem addPath_entry_frame (v : String) (hid : Nat) :
    ∀ (fuel : Nat) (n : Node) (path : List Char)
      (wcds : Option (List (List Char))) (inSt : Bool)
      (f : Node → Except String Node) (t : Node),
      WFs n → PreservesShape f → PreservesEntry v hid f →
      addPath fuel n path wcds inSt f = .ok t →
      ∀ q : List Char, EntryVia v hid n q → EntryVia v hid t q := by
  intro fuel
  induction fuel with
  | zero =>
      intro n path wcds inSt f t _ _ _ h q _
      rw [addPath.eq_def] at h
      simp at h
  | succ fuel IH =>
      intro n path wcds inSt f t hW hf hpe h q hE
      have hWt := (addPath_wfs (fuel + 1) n path wcds inSt f t hW hf h).1
      rw [addPath.eq_def] at h
      simp only at h
      by_cases hp : path = []
      · rw [if_pos hp] at h
        cases wcds with
        | none =>
            by_cases hq : q = []
            · subst hq
              obtain ⟨fu, leaf, m, hsf, hml, hget, hflag⟩ := hE
              have hleaf : leaf = n := by
                cases fu with
                | zero => simp [staticFind] at hsf
                | succ fu0 =>
                    simp [staticFind] at hsf
                    exact hsf.symm
              obtain ⟨m', hm', hget', hflag'⟩ :=
                hpe n t m h (by rw [← hleaf]; exact hml) hget hflag
              exact ⟨1, t, m', by simp [staticFind], hm', hget', hflag'⟩
            · obtain ⟨hs, -, -, -⟩ := hf n t h
              obtain ⟨fu, leaf, m, hsf, hml, hget, hflag⟩ := hE
              exact ⟨fu, leaf, m, by rw [staticFind_congr hs fu hq]; exact hsf,
                hml, hget, hflag⟩
        | some ws =>
            simp only at h
            cases hold : Node.leafWildcardNames n with
            | none =>
                rw [hold] at h
                simp only at h
                by_cases hq : q = []
                · subst hq
                  obtain ⟨fu, leaf, m, hsf, hml, hget, hflag⟩ := hE
                  have hleaf : leaf = n := by
                    cases fu with
                    | zero => simp [staticFind] at hsf
                    | succ fu0 =>
                        simp [staticFind] at hsf
                        exact hsf.symm
                  obtain ⟨m', hm', hget', hflag'⟩ :=
                    hpe _ t m h
                      (by rw [handlerMap_setLeafNames, ← hleaf]; exact hml) hget hflag
                  exact ⟨1, t, m', by simp [staticFind], hm', hget', hflag'⟩
                · obtain ⟨hs, -, -, -⟩ := hf _ t h
                  obtain ⟨fu, leaf, m, hsf, hml, hget, hflag⟩ := hE
                  have hs2 : Node.static t = Node.static n := by
                    rw [hs, static_setLeafNames]
                  exact ⟨fu, leaf, m, by rw [staticFind_congr hs2 fu hq]; exact hsf,
                    hml, hget, hflag⟩
            | some old =>
                rw [hold] at h
                simp only at h
                split at h
                · exact absurd h (by simp)
                · split at h
                  · exact absurd h (by simp)
                  · by_cases hq : q = []
                    · subst hq
                      obtain ⟨fu, leaf, m, hsf, hml, hget, hflag⟩ := hE
                      have hleaf : leaf = n := by
                        cases fu with
                        | zero => simp [staticFind] at hsf
                        | succ fu0 =>
                            simp [staticFind] at hsf
                            exact hsf.symm
                      obtain ⟨m', hm', hget', hflag'⟩ :=
                        hpe n t m h (by rw [← hleaf]; exact hml) hget hflag
                      exact ⟨1, t, m', by simp [staticFind], hm', hget', hflag'⟩
                    · obtain ⟨hs, -, -, -⟩ := hf n t h
                      obtain ⟨fu, leaf, m, hsf, hml, hget, hflag⟩ := hE
                      exact ⟨fu, leaf, m, by rw [staticFind_congr hs fu hq]; exact hsf,
                        hml, hget, hflag⟩
      · rw [if_neg hp] at h
        by_cases hstar : (path.headD ' ' = '*' ∧ inSt = false)
        · rw [if_pos hstar] at h
          split at h
          · exact absurd h (by simp)
          · split at h
            · exact absurd h (by simp)
            · obtain ⟨res, hres, hret⟩ := bind_ok_inv h
              have ht : t = setCatchAll n (some res) := by
                simp only [pure, Except.pure] at hret
                exact (Except.ok.inj hret).symm
              subst ht
              exact entryVia_congr (static_setCatchAll n _)
                (handlerMap_setCatchAll n _) hE
        · rw [if_neg hstar] at h
          by_cases hcolon : (path.headD ' ' = ':' ∧ inSt = false)
          · rw [if_pos hcolon] at h
            obtain ⟨res, hres, hret⟩ := bind_ok_inv h
            have ht : t = setWildcard n (some res) := by
              simp only [pure, Except.pure] at hret
              exact (Except.ok.inj hret).symm
            subst ht
            exact entryVia_congr (static_setWildcard n _)
              (handlerMap_setWildcard n _) hE
          · rw [if_neg hcolon] at h
            refine addPath_static_frame v hid fuel IH n wcds _ f t _ _ _ _
              hW hWt hf hpe ?_ ?_ h q hE
            · by_cases hesc : escapedTok (path.take (tokenEndOf path)) inSt = true
              · rw [if_pos hesc]
                exact (tok_facts_esc path inSt hesc).1
              · rw [if_neg hesc]
                exact thisToken_ne path hp
            · by_cases hesc : escapedTok (path.take (tokenEndOf path)) inSt = true
              · rw [if_pos hesc, if_pos hesc]
                exact (tok_facts_esc path inSt hesc).2.1
              · rw [if_neg hesc, if_neg hesc]
                exact thisToken_headD path hp

/-- Inserting a literal path (no wildcard, catch-all or escape markers)
installs the new entry at the end of the static spine spelled by that very
path. -/
theorem addPath_literal_installs (v : String) (hid : Nat) :
    ∀ (fuel : Nat) (n : Node) (path : List Char)
      (wcds : Option (List (List Char))) (inSt : Bool)
      (f : Node → Except String Node) (t : Node),
      WFs n → PreservesShape f → InstallsEntry v hid f →
      (∀ c ∈ path, ¬(c = ':' ∨ c = '*' ∨ c = '\\')) →
      addPath fuel n path wcds inSt f = .ok t →
      EntryVia v hid t path := by
  intro fuel
  induction fuel with
  | zero =>
      intro n path wcds inSt f t _ _ _ _ h
      rw [addPath.eq_def] at h
      simp at h
  | succ fuel IH =>
      intro n path wcds inSt f t hW hf hin hlit h
      have hWt := (addPath_wfs (fuel + 1) n path wcds inSt f t hW hf h).1
      rw [addPath.eq_def] at h
      simp only at h
      by_cases hp : path = []
      · rw [if_pos hp] at h
        subst hp
        cases wcds with
        | none =>
            obtain ⟨m', hm', hget', hflag'⟩ := hin n t h
            exact ⟨1, t, m', by simp [staticFind], hm', hget', hflag'⟩
        | some ws =>
            simp only at h
            cases hold : Node.leafWildcardNames n with
            | none =>
                rw [hold] at h
                simp only at h
                obtain ⟨m', hm', hget', hflag'⟩ := hin _ t h
                exact ⟨1, t, m', by simp [staticFind], hm', hget', hflag'⟩
            | some old =>
                rw [hold] at h
                simp only at h
                split at h
                · exact absurd h (by simp)
                · split at h
                  · exact absurd h (by simp)
                  · obtain ⟨m', hm', hget', hflag'⟩ := hin n t h
                    exact ⟨1, t, m', by simp [staticFind], hm', hget', hflag'⟩
      · rw [if_neg hp] at h
        have hhead : path.headD ' ' ∈ path := by
          cases path with
          | nil => exact absurd rfl hp
          | cons a l => simp
        have hnost := hlit _ hhead
        have hstar : ¬(path.headD ' ' = '*' ∧ inSt = false) := by
          intro hc
          exact hnost (Or.inr (Or.inl hc.1))
        rw [if_neg hstar] at h
        have hcolon : ¬(path.headD ' ' = ':' ∧ inSt = false) := by
          intro hc
          exact hnost (Or.inl hc.1)
        rw [if_neg hcolon] at h
        have hesc : escapedTok (path.take (tokenEndOf path)) inSt = false :=
          escapedTok_false path inSt hp (fun hc => hnost (Or.inr (Or.inr hc)))
        simp only [hesc, Bool.false_eq_true, if_false, Nat.add_zero] at h
        have htokne := thisToken_ne path hp
        have htokhead := thisToken_headD path hp
        have hteL := tokenEnd_le path hp
        have htokLen : (path.take (tokenEndOf path)).length = tokenEndOf path := by
          rw [List.length_take]
          omega
        have hlit2 : ∀ k : Nat, ∀ c ∈ path.drop k, ¬(c = ':' ∨ c = '*' ∨ c = '\\') :=
          fun k c hc => hlit c (List.drop_subset k path hc)
        split at h
        · rename_i i hidx
          obtain ⟨hi, hbeq, -⟩ := List.findIdx?_eq_some_iff_getElem.mp hidx
          have heq : ((Node.static n)[i]).1 = path.headD ' ' := by
            simpa using hbeq
          have hget2 : (Node.static n)[i]? = some ((Node.static n)[i]) :=
            List.getElem?_eq_getElem hi
          rw [hget2] at h
          simp only [Option.getD_some] at h
          have hmem : (Node.static n)[i] ∈ Node.static n := List.getElem_mem hi
          obtain ⟨hcne, hchead, hcslash⟩ := wfs_facts hW _ hmem
          have hWchild := wfs_children hW _ hmem
          have hheads : (path.take (tokenEndOf path)).headD ' ' =
              (Node.path ((Node.static n)[i]).2).headD ' ' := by
            rw [htokhead, hchead, heq]
          have hWsp := (splitCommonPart_wfs ((Node.static n)[i]).2 _ hWchild hcne htokne
            hheads hcslash).1
          have hWbump : WFs (bumpPriority
              (splitCommonPart ((Node.static n)[i]).2 (path.take (tokenEndOf path))).1) :=
            wfs_congr (static_bumpPriority _) (wildcard_bumpPriority _)
              (catchAll_bumpPriority _) hWsp
          obtain ⟨res, hres, hret⟩ := bind_ok_inv h
          have hpres : Node.path res = Node.path
              (splitCommonPart ((Node.static n)[i]).2 (path.take (tokenEndOf path))).1 := by
            have h2 := (addPath_wfs fuel _ _ _ _ f res hWbump hf hres).2
            rw [path_bumpPriority] at h2
            exact h2
          have hEres := IH _ _ _ _ f res hWbump hf hin (hlit2 _) hres
          have ht : t = setStatic n (sortStaticAt
              ((Node.static n).set i (path.headD ' ', res)) i) := by
            have h2 := hret
            simp only [pure, Except.pure] at h2
            exact (Except.ok.inj h2).symm
          subst ht
          have hndT : ((sortStaticAt ((Node.static n).set i (path.headD ' ', res)) i).map
              Prod.fst).Nodup := by
            have h2 := wfs_nodup hWt
            rw [static_setStatic] at h2
            exact h2
          have hmemres : (path.headD ' ', res) ∈
              sortStaticAt ((Node.static n).set i (path.headD ' ', res)) i := by
            apply (sortStaticAt_perm i _).mem_iff.mpr
            have hiq : ((Node.static n).set i (path.headD ' ', res))[i]? =
                some (path.headD ' ', res) := by
              rw [List.getElem?_set_self']
              rw [hget2]
              rfl
            exact List.getElem?_mem hiq
          have hfindT : findStaticPair
              (sortStaticAt ((Node.static n).set i (path.headD ' ', res)) i)
              (path.headD ' ') = some (path.headD ' ', res) :=
            find?_key_unique hndT hmemres rfl
          obtain ⟨fu2, leaf2, m2, hsf2, hml2, hget2b, hflag2⟩ := hEres
          by_cases hpre : Node.path ((Node.static n)[i]).2 =
              (path.take (tokenEndOf path)).take (Node.path ((Node.static n)[i]).2).length
          · have hsp1 : (splitCommonPart ((Node.static n)[i]).2
                (path.take (tokenEndOf path))).1 = ((Node.static n)[i]).2 := by
              unfold splitCommonPart
              rw [if_pos hpre]
            have hsp2 : (splitCommonPart ((Node.static n)[i]).2
                (path.take (tokenEndOf path))).2 =
                (Node.path ((Node.static n)[i]).2).length := by
              unfold splitCommonPart
              rw [if_pos hpre]
            have hLle : (Node.path ((Node.static n)[i]).2).length ≤ tokenEndOf path := by
              have h2 := congrArg List.length hpre
              rw [List.length_take, htokLen] at h2
              omega
            have hpathres : Node.path res =
                path.take (Node.path ((Node.static n)[i]).2).length := by
              rw [hpres, hsp1]
              conv_lhs => rw [hpre]
              rw [List.take_take]
              congr 1
              omega
            have hreslen : (Node.path res).length =
                (Node.path ((Node.static n)[i]).2).length := by
              rw [hpres, hsp1]
            refine ⟨fu2 + 1, leaf2, m2, ?_, hml2, hget2b, hflag2⟩
            simp only [staticFind]
            rw [if_neg hp, static_setStatic, hfindT]
            simp only
            have hcondsT : (Node.path res).length ≤ path.length ∧
                Node.path res = path.take (Node.path res).length := by
              constructor
              · rw [hreslen]
                omega
              · rw [hpathres, List.length_take]
                congr 1
                omega
            rw [if_pos hcondsT]
            rw [hreslen]
            rw [hsp2] at hsf2
            exact hsf2
          · have hpos : 1 ≤ commonLen (Node.path ((Node.static n)[i]).2)
                (path.take (tokenEndOf path)) :=
              commonLen_pos hcne htokne hheads.symm
            have hlt2 : commonLen (Node.path ((Node.static n)[i]).2)
                (path.take (tokenEndOf path)) <
                (Node.path ((Node.static n)[i]).2).length := commonLen_lt hpre
            have hi0tok : commonLen (Node.path ((Node.static n)[i]).2)
                (path.take (tokenEndOf path)) ≤ tokenEndOf path := by
              have h2 := commonLen_le_right (Node.path ((Node.static n)[i]).2)
                (path.take (tokenEndOf path))
              rw [htokLen] at h2
              exact h2
            have hsp1 : Node.path (splitCommonPart ((Node.static n)[i]).2
                (path.take (tokenEndOf path))).1 =
                (path.take (tokenEndOf path)).take
                  (commonLen (Node.path ((Node.static n)[i]).2)
                    (path.take (tokenEndOf path))) := by
              unfold splitCommonPart
              rw [if_neg hpre]
              rfl
            have hsp2 : (splitCommonPart ((Node.static n)[i]).2
                (path.take (tokenEndOf path))).2 =
                commonLen (Node.path ((Node.static n)[i]).2)
                  (path.take (tokenEndOf path)) := by
              unfold splitCommonPart
              rw [if_neg hpre]
            have hpathres : Node.path res = path.take
                (commonLen (Node.path ((Node.static n)[i]).2)
                  (path.take (tokenEndOf path))) := by
              rw [hpres, hsp1, List.take_take]
              congr 1
              omega
            have hreslen : (Node.path res).length =
                commonLen (Node.path ((Node.static n)[i]).2)
                  (path.take (tokenEndOf path)) := by
              rw [hpathres, List.length_take]
              omega
            refine ⟨fu2 + 1, leaf2, m2, ?_, hml2, hget2b, hflag2⟩
            simp only [staticFind]
            rw [if_neg hp, static_setStatic, hfindT]
            simp only
            have hcondsT : (Node.path res).length ≤ path.length ∧
                Node.path res = path.take (Node.path res).length := by
              constructor
              · rw [hreslen]
                omega
              · rw [hpathres, List.length_take]
                congr 1
                omega
            rw [if_pos hcondsT]
            rw [hreslen]
            rw [hsp2] at hsf2
            exact hsf2
        · rename_i hidx
          obtain ⟨res, hres, hret⟩ := bind_ok_inv h
          have hpres : Node.path res = path.take (tokenEndOf path) := by
            have h2 := (addPath_wfs fuel _ _ _ _ f res (wfs_mkNode _) hf hres).2
            rw [path_mkNode] at h2
            exact h2
          have hEres := IH _ _ _ _ f res (wfs_mkNode _) hf hin (hlit2 _) hres
          have ht : t = setStatic n ((Node.static n) ++ [(path.headD ' ', res)]) := by
            have h2 := hret
            simp only [pure, Except.pure] at h2
            exact (Except.ok.inj h2).symm
          subst ht
          have hnone : (Node.static n).find? (fun p => p.1 == path.headD ' ') = none := by
            rw [List.find?_eq_none]
            intro pr hpr
            have h2 := List.findIdx?_eq_none_iff.mp hidx pr hpr
            simpa using h2
          have happ : findStaticPair ((Node.static n) ++ [(path.headD ' ', res)])
              (path.headD ' ') = some (path.headD ' ', res) := by
            unfold findStaticPair
            rw [List.find?_append, hnone]
            simp
          obtain ⟨fu2, leaf2, m2, hsf2, hml2, hget2b, hflag2⟩ := hEres
          refine ⟨fu2 + 1, leaf2, m2, ?_, hml2, hget2b, hflag2⟩
          simp only [staticFind]
          rw [if_neg hp, static_setStatic, happ]
          simp only
          have hreslen : (Node.path res).length = tokenEndOf path := by
            rw [hpres, htokLen]
          have hcondsT : (Node.path res).length ≤ path.length ∧
              Node.path res = path.take (Node.path res).length := by
            constructor
            · rw [hreslen]
              omega
            · rw [hpres, htokLen]
          rw [if_pos hcondsT]
          rw [hreslen]
          exact hsf2

/-- Frame property of `Group.Handle`: any successful later registration keeps
an explicitly stored entry resolvable through the static spine. -/
theorem handleAdd_entry_frame (v : String) (hid : Nat) (s : Node) (v2 : String)
    (p2 : List Char) (h2 : Nat) (hg rt : Bool) (t : Node) (q : List Char)
    (hWs : WFs s) (h : handleAdd s v2 p2 h2 hg rt = .ok t)
    (hE : EntryVia v hid s q) : EntryVia v hid t q := by
  unfold handleAdd at h
  split at h
  · exact absurd h (by simp)
  · split at h
    · exact absurd h (by simp)
    · dsimp only at h
      exact addPath_entry_frame v hid _ s _ none false _ t hWs
        (handleAdd_f_shape v2 _ h2 _ hg) (handleAdd_f_entry v2 _ h2 _ hg v hid) h q hE

/-- Registering a literal pattern without a trailing slash under the default
configuration installs the (verb ↦ handler) entry at the end of the static
spine spelled by the pattern body. -/
theorem handleAdd_literal_entry (v : String) (hid : Nat) (s : Node) (p : List Char)
    (hg rt : Bool) (t : Node) (hWs : WFs s)
    (hhead : p.headD ' ' = '/')
    (hchars : ∀ c ∈ p, ¬(c = ':' ∨ c = '*' ∨ c = '\\'))
    (htrail : ¬(1 < p.length ∧ p.getLastD ' ' = '/'))
    (h : handleAdd s v p hid hg rt = .ok t) :
    EntryVia v hid t (p.drop 1) := by
  have hpne : p ≠ [] := by
    intro hc
    rw [hc] at hhead
    simp at hhead
  unfold handleAdd at h
  rw [if_neg (fun hc => hc.2 hhead)] at h
  rw [if_neg hpne] at h
  dsimp only at h
  have haddSlash : (decide (1 < p.length) && (p.getLastD ' ' == '/') && rt) = false := by
    by_cases h1 : 1 < p.length
    · have h4 : (p.getLastD ' ' == '/') = false := by
        simpa using fun hc => htrail ⟨h1, hc⟩
      rw [h4, Bool.and_false, Bool.false_and]
    · have h4 : decide (1 < p.length) = false := by
        simpa using h1
      rw [h4, Bool.false_and, Bool.false_and]
  simp only [haddSlash, Bool.false_eq_true, if_false] at h
  exact addPath_literal_installs v hid (p.length + 1) s (p.drop 1) none false _ t hWs
    (handleAdd_f_shape v p hid false hg)
    (handleAdd_f_installsEntry v p hid false hg)
    (fun c hc => hchars c (List.drop_subset 1 p hc)) h

/-- Entry resolution survives any successful registration sequence. -/
theorem fold_entry_frame (v : String) (hid : Nat) (q : List Char) :
    ∀ (ops : List Op) (s t : Node), WFs s →
      List.foldlM applyOp s ops = .ok t →
      EntryVia v hid s q → EntryVia v hid t q := by
  intro ops
  induction ops with
  | nil =>
      intro s t _ hfold hE
      simp only [List.foldlM_nil, pure, Except.pure] at hfold
      have h2 := Except.ok.inj hfold
      subst h2
      exact hE
  | cons o rest ih =>
      intro s t hWs hfold hE
      rw [List.foldlM_cons] at hfold
      obtain ⟨m0, hm0, hrest⟩ := bind_ok_inv hfold
      exact ih m0 t (handleAdd_wfs s o.verb o.pattern o.handler true true m0 hWs hm0)
        hrest (handleAdd_entry_frame v hid s o.verb o.pattern o.handler true true m0 q
          hWs hm0 hE)

/-- Every literal, non-trailing-slash registration of a successful sequence
ends, at the final tree, in a static spine entry for its own verb, handler
and (explicit) HEAD-flag. -/
theorem runOps_literal_entry : ∀ (ops : List Op) (s t : Node), WFs s →
    List.foldlM applyOp s ops = .ok t →
    ∀ op ∈ ops,
      op.pattern.headD ' ' = '/' →
      (∀ c ∈ op.pattern, ¬(c = ':' ∨ c = '*' ∨ c = '\\')) →
      ¬(1 < op.pattern.length ∧ op.pattern.getLastD ' ' = '/') →
      EntryVia op.verb op.handler t (op.pattern.drop 1) := by
  intro ops
  induction ops with
  | nil =>
      intro s t _ _ op hop
      cases hop
  | cons o rest ih =>
      intro s t hWs hfold op hop hhead hchars htrail
      rw [List.foldlM_cons] at hfold
      obtain ⟨m0, hm0, hrest⟩ := bind_ok_inv hfold
      have hWm0 := handleAdd_wfs s o.verb o.pattern o.handler true true m0 hWs hm0
      rcases List.mem_cons.mp hop with heq | htail
      · subst heq
        exact fold_entry_frame op.verb op.handler (op.pattern.drop 1) rest m0 t hWm0 hrest
          (handleAdd_literal_entry op.verb op.handler s op.pattern true true m0 hWs
            hhead hchars htrail hm0)
      · exact ih m0 t hWm0 hrest op htail hhead hchars htrail

/-- C3 (amended): for every successful registration sequence from the empty
root, every operation of the sequence whose pattern is purely literal (starts
with `/`, contains no `:`, `*` or `\` byte) and does not carry a stripped
trailing slash (it is `/` itself or does not end in `/`), a subsequent match
of its verb against the pattern string as request path returns exactly its
registered handler at a present node with an empty parameter list — no matter
which other routes were registered before or after it. -/
theorem c3_literal_roundtrip :
    ∀ (ops : List Op) (t : Node), runOps ops = .ok t →
    ∀ op ∈ ops,
      op.pattern.headD ' ' = '/' →
      (∀ c ∈ op.pattern, ¬(c = ':' ∨ c = '*' ∨ c = '\\')) →
      ¬(1 < op.pattern.length ∧ op.pattern.getLastD ' ' = '/') →
      ∃ leaf : Node,
        matchRoute t op.verb op.pattern = (some leaf, some op.handler, []) := by
  intro ops t hrun op hop hhead hchars htrail
  have hW := runOps_wfs ops t hrun
  rw [runOps] at hrun
  obtain ⟨fu, leaf, m, hsf, hml, hget, hflag⟩ :=
    runOps_literal_entry ops emptyRoot t wfs_emptyRoot hrun op hop hhead hchars htrail
  have hsf2 := staticFind_fuel fu t (op.pattern.drop 1) leaf hW hsf
  have hsf3 : staticFind (op.pattern.length + 1) t (op.pattern.drop 1) = some leaf := by
    refine staticFind_mono _ _ _ _ _ ?_ hsf2
    simp only [List.length_drop]
    omega
  have hnh : nodeHandlerFor leaf op.verb = some op.handler := by
    unfold nodeHandlerFor
    rw [hml]
    exact hget
  refine ⟨leaf, ?_⟩
  rw [matchRoute]
  exact search_of_staticFind (op.pattern.length + 1) t leaf (op.pattern.drop 1)
    op.verb op.handler hsf3 hnh

set_option maxHeartbeats 2000000 in
/-- C3 witness: with `GET /about` and `GET /a` registered (the second splits
the first edge), matching GET `/about` returns handler 9 at a present node
with no parameters. -/
theorem c3_literal_roundtrip_witness :
    runOps [⟨"GET", "/about".toList, 9⟩, ⟨"GET", "/a".toList, 10⟩] = .ok treeC3 ∧
    (matchRoute treeC3 "GET" "/about".toList).1.isSome = true ∧
    (matchRoute treeC3 "GET" "/about".toList).2.1 = some 9 ∧
    (matchRoute treeC3 "GET" "/about".toList).2.2 = [] := by
  obtain ⟨leaf, hleaf⟩ := c3_literal_roundtrip
    [⟨"GET", "/about".toList, 9⟩, ⟨"GET", "/a".toList, 10⟩] treeC3 rfl
    ⟨"GET", "/about".toList, 9⟩ (List.mem_cons_self _ _) (by decide) (by decide)
    (by decide)
  refine ⟨rfl, ?_, ?_, ?_⟩
  · rw [hleaf]
    rfl
  · rw [hleaf]
  · rw [hleaf]

end Treemux
